import Mathlib

/-!
Verification of the treaty timelapse reconciliation pipeline
(`scripts/generate_timelapse_data.py`): event normalization, the
reconciliation engine with its treaty-state tracker and expiry/deletion
inference, the noise filter, the churn collapser and the frame-index
builder, shallowly embedded as executable Lean definitions, together with
theorems about the pipeline's documented behaviour.

Modelling conventions:
- Instants (`datetime` values) are modelled as integer seconds since the
  Unix epoch, UTC (`Time := Int`).  The source stores instants as ISO-8601
  UTC strings and reparses them with `parse_dt`; since `parse_dt ∘ dt_to_iso`
  is the identity, a record field that holds an ISO timestamp string is
  modelled by the instant itself.  `timedelta(hours=h)` becomes `h * 3600`
  and `timedelta(minutes=m)` becomes `m * 60`.
- The date prefix `str(ts)[:10]` of an ISO UTC timestamp is modelled by the
  floored day number `Int.fdiv ts 86400`; two ISO strings share their
  10-character prefix iff the instants share their floored day, and
  lexicographic order on date prefixes agrees with numeric order on days.
- Python dicts are modelled as association lists with insertion-order
  semantics: updating an existing key keeps its position, inserting a new
  key appends.  The engine's nested `active` dict
  (`pair -> treaty_type -> TreatyState`) is flattened to a single
  association list keyed by `(pair, treaty_type)`.
- Python sets (`day_add`/`day_remove` in the frame-index builder) are
  modelled as `Finset ℕ`.
- `list.sort` is Python's stable sort; it is modelled by
  `List.insertionSort`, which is also stable, so the two agree extensionally.
-/

namespace TreatyVis

/-- Instants as integer seconds since the Unix epoch (UTC). -/
abbrev Time := Int

/-- `HOURS_PER_TURN = 2`. -/
def HOURS_PER_TURN : Int := 2

/-- The `TERMINAL_ACTIONS` set of the source. -/
def TERMINAL_ACTIONS : List String :=
  ["cancelled", "expired", "ended", "terminated", "termination", "inferred_cancelled"]

/-- `TERMINAL_ACTION_ALIASES.get(action, action)`. -/
def TERMINAL_ACTION_ALIASES (action : String) : String :=
  if action = "terminated" ∨ action = "termination" then "ended" else action

/-- `str.strip` over the character list.  (The built-in `String.trim` is
position-based and does not reduce definitionally, so the Python string
primitives are modelled by structurally recursive char-list functions.) -/
def trim_chars (l : List Char) : List Char :=
  ((l.dropWhile Char.isWhitespace).reverse.dropWhile Char.isWhitespace).reverse

/-- `str.strip`. -/
def trim_str (s : String) : String := String.mk (trim_chars s.data)

/-- `str.lower` (ASCII, which covers every action token of the feed). -/
def lower_str (s : String) : String := String.mk (s.data.map Char.toLower)

/-- `str.upper` (ASCII, which covers every treaty-type token of the feed). -/
def upper_str (s : String) : String := String.mk (s.data.map Char.toUpper)

/-- `normalize_action`: lower-case and trim, empty stays empty, aliases folded.
`raw = none` models a missing value (`str(None or "") = ""`). -/
def normalize_action (raw : Option String) : String :=
  let action := lower_str (trim_str (raw.getD ""))
  if action = "" then "" else TERMINAL_ACTION_ALIASES action

/-- Whitespace-separated tokens of a character list (accumulator holds the
current token reversed). -/
def split_ws_aux : List Char → List Char → List (List Char)
  | [], acc => if acc.isEmpty then [] else [acc.reverse]
  | c :: rest, acc =>
    if c.isWhitespace then
      if acc.isEmpty then split_ws_aux rest []
      else acc.reverse :: split_ws_aux rest []
    else split_ws_aux rest (c :: acc)

/-- Collapse whitespace runs to single spaces and trim, the effect of
`re.sub(r"\s+", " ", text).strip()`. -/
def collapse_ws (s : String) : String :=
  String.intercalate " " ((split_ws_aux s.data []).map String.mk)

/-- `clean_alliance_name`. -/
def clean_alliance_name (raw : Option String) : String :=
  collapse_ws (raw.getD "")

/-- Remove a trailing rank annotation, the effect of
`re.sub(r"\s*\|\s*RANK\s*#:?\s*\d+\s*$", "", text)`: scanning from the end,
optional whitespace, one or more digits, optional whitespace, an optional
colon glued to a hash sign, optional whitespace, the literal `RANK`,
optional whitespace and a pipe; if the whole pattern matches, everything
from the pipe on is dropped. -/
def strip_rank_suffix (s : String) : String :=
  let r0 := s.data.reverse
  let r1 := r0.dropWhile Char.isWhitespace
  if (r1.takeWhile Char.isDigit).isEmpty then s else
  let r2 := (r1.dropWhile Char.isDigit).dropWhile Char.isWhitespace
  let r3 := if r2.head? = some ':' then r2.tail else r2
  match r3 with
  | '#' :: r4 =>
    match r4.dropWhile Char.isWhitespace with
    | 'K' :: 'N' :: 'A' :: 'R' :: r5 =>
      match r5.dropWhile Char.isWhitespace with
      | '|' :: r6 => String.mk r6.reverse
      | _ => s
    | _ => s
  | _ => s

/-- `norm_treaty_type`. -/
def norm_treaty_type (raw : Option String) : String :=
  let text := upper_str (trim_str (raw.getD ""))
  if text = "" then "" else collapse_ws (strip_rank_suffix text)

/-- `norm_pair`. -/
def norm_pair (a b : Int) : Int × Int :=
  if a ≤ b then (a, b) else (b, a)

/-- The source hashes a field blob with SHA-256 and keeps 20 hex digits.
The digest is modelled as the blob itself: no claim depends on the digest's
value, only on which fields feed the hash and on its determinism. -/
def sha256_hex_20 (blob : String) : String := blob

/-- Diagnostic flags.  The source attaches further payload fields (record
indexes, event references, cluster statistics); the claims inspect only the
severity and the flag name, so only those are modelled. -/
structure Flag where
  severity : String
  flag : String
deriving DecidableEq, Repr, Inhabited

/-- A normalized treaty event, the shared shape produced by
`load_bot_events` and `build_archive_delta_events` and consumed by
`reconcile_events`. -/
structure NormEvent where
  timestamp : Time
  action : String
  treaty_type : String
  from_alliance_id : Int
  from_alliance_name : String
  to_alliance_id : Int
  to_alliance_name : String
  pair_min_id : Int
  pair_max_id : Int
  source : String
  source_ref : String
  confidence : String
  inferred : Bool
  inference_reason : Option String
  time_remaining_turns : Option Int
deriving DecidableEq, Repr, Inhabited

/-- An `alliance_zero_members` marker produced by
`load_alliance_zero_markers` (its dict carries
`action = "alliance_zero_members"`, which here is carried by the
`StreamItem.marker` constructor). -/
structure ZeroMarker where
  timestamp : Time
  alliance_id : Int
  source : String
  source_ref : String
deriving DecidableEq, Repr, Inhabited

/-- An item of the merged stream inside `reconcile_events`: either a
normalized event (which has `from/to` fields and pair fields) or a zero
marker (whose `action` is `"alliance_zero_members"`). -/
inductive StreamItem where
  | ev (e : NormEvent)
  | marker (m : ZeroMarker)
deriving DecidableEq, Repr

/-- An emitted reconciled record. -/
structure ReconRecord where
  timestamp : Time
  action : String
  treaty_type : String
  from_alliance_id : Int
  from_alliance_name : String
  to_alliance_id : Int
  to_alliance_name : String
  pair_min_id : Int
  pair_max_id : Int
  source : String
  source_ref : String
  confidence : String
  inferred : Bool
  inference_reason : Option String
  time_remaining_turns : Option Int
  grounded_from : Bool
  grounded_to : Bool
  grounded_keep : Bool
  noise_filtered : Bool
  noise_reason : Option String
  event_sequence : Nat
  event_id : String
deriving DecidableEq, Repr, Inhabited

/-- `event_id(payload)`: the hash blob joins timestamp, event_sequence,
action, treaty_type, the pair ids, source and source_ref. -/
def event_id (r : ReconRecord) : String :=
  sha256_hex_20 (String.intercalate "|"
    [toString r.timestamp, toString r.event_sequence, r.action, r.treaty_type,
     toString r.pair_min_id, toString r.pair_max_id, r.source, r.source_ref])

/-! ## Bot event loading (`load_bot_events`) -/
/-- A raw bot input record (one JSON object of `treaties.json`).
`none` in `timestamp` models a missing or unparseable timestamp
(`parse_dt(rec["timestamp"])` raises `KeyError`/`ValueError` there);
`none` in the id fields models a missing or non-integer value
(`int(rec.get(...))` raises `TypeError`/`ValueError` there). -/
structure RawBotRecord where
  timestamp : Option Time
  action : Option String
  treaty_type : Option String
  from_alliance_id : Option Int
  from_alliance_name : Option String
  to_alliance_id : Option Int
  to_alliance_name : Option String
  time_remaining_turns : Option Int
deriving DecidableEq, Repr, Inhabited

/-- `treaty_type.split("->", 1)` on the character list: `none` when the
arrow does not occur (the `"->" not in treaty_type` test), otherwise the
text before and after the first occurrence. -/
def split_first_arrow : List Char → Option (List Char × List Char)
  | '-' :: '>' :: rest => some ([], rest)
  | c :: rest => (split_first_arrow rest).map (fun p => (c :: p.1, p.2))
  | [] => none

/-- `load_bot_events`, with the enumeration index threaded explicitly.
An uncaught Python exception is modelled as `Except.error`. -/
def load_bot_events_from (idx : Nat) :
    List RawBotRecord → Except String (List NormEvent × List Flag)
  | [] => .ok ([], [])
  | rec :: rest =>
    let action := normalize_action rec.action
    if action = "" then
      (load_bot_events_from (idx + 1) rest).map
        (fun p => (p.1, Flag.mk "warning" "missing_action" :: p.2))
    else
      match rec.from_alliance_id with
      | none => .error "TypeError: from_alliance_id is not an int"
      | some from_id =>
      match rec.to_alliance_id with
      | none => .error "TypeError: to_alliance_id is not an int"
      | some to_id =>
      let pair := norm_pair from_id to_id
      let treaty_type := norm_treaty_type rec.treaty_type
      let time_turns_norm := rec.time_remaining_turns
      match rec.timestamp with
      | none => .error "KeyError or ValueError: bad timestamp"
      | some ts =>
      let base : NormEvent :=
        { timestamp := ts
          action := ""
          treaty_type := ""
          from_alliance_id := from_id
          from_alliance_name := clean_alliance_name rec.from_alliance_name
          to_alliance_id := to_id
          to_alliance_name := clean_alliance_name rec.to_alliance_name
          pair_min_id := pair.1
          pair_max_id := pair.2
          source := "bot"
          source_ref := "bot:" ++ toString idx
          confidence := "high"
          inferred := false
          inference_reason := none
          time_remaining_turns := time_turns_norm }
      if action = "upgraded" ∨ action = "downgraded" then
        match split_first_arrow treaty_type.data with
        | some parts =>
          let old_type := norm_treaty_type (some (String.mk parts.1))
          let new_type := norm_treaty_type (some (String.mk parts.2))
          (load_bot_events_from (idx + 1) rest).map
            (fun p =>
              ({ base with action := "cancelled", treaty_type := old_type } ::
               { base with action := "signed", treaty_type := new_type } :: p.1, p.2))
        | none =>
          (load_bot_events_from (idx + 1) rest).map
            (fun p => (p.1, Flag.mk "warning" "upgrade_without_arrow_type" :: p.2))
      else
        (load_bot_events_from (idx + 1) rest).map
          (fun p => ({ base with action := action, treaty_type := treaty_type } :: p.1, p.2))

/-- `load_bot_events(path)` after the JSON records are in memory. -/
def load_bot_events (records : List RawBotRecord) :
    Except String (List NormEvent × List Flag) :=
  load_bot_events_from 0 records

/-! ## Dicts, the treaty state tracker, grounding -/
/-- Insertion-order dict update (`m[k] = v`): replace in place when the key
is present, append otherwise. -/
def dict_set {α β : Type} [DecidableEq α] (m : List (α × β)) (k : α) (v : β) :
    List (α × β) :=
  if m.any (fun p => decide (p.1 = k)) then
    m.map (fun p => if p.1 = k then (k, v) else p)
  else m ++ [(k, v)]

/-- Dict lookup (`m.get(k)`). -/
def dict_get {α β : Type} [DecidableEq α] (m : List (α × β)) (k : α) : Option β :=
  (m.find? (fun p => decide (p.1 = k))).map (fun p => p.2)

/-- Dict deletion (`del m[k]`, a no-op when absent, matching `pop(k, None)`). -/
def dict_del {α β : Type} [DecidableEq α] (m : List (α × β)) (k : α) :
    List (α × β) :=
  m.filter (fun p => decide (p.1 ≠ k))

/-- The live state of one open treaty (`TreatyState` in the source). -/
structure TreatyState where
  treaty_type : String
  opened_at : Time
  expires_at : Option Time
  last_event_id : String
deriving DecidableEq, Repr, Inhabited

abbrev Pair := Int × Int

/-- Key of the tracker: the ordered pair together with the treaty type.
The source's nested dict `pair -> treaty_type -> TreatyState` is flattened
to one association list on this key. -/
abbrev TreatyKey := Pair × String

abbrev Active := List (TreatyKey × TreatyState)

/-- `_candidate_types_for_pair`: the sorted list of open treaty types for a
pair (`sorted(active.get(pair, {}).keys())`). -/
def candidate_types_for_pair (active : Active) (pair : Pair) : List String :=
  List.insertionSort (fun a b : String => a ≤ b)
    ((active.filter (fun p => decide (p.1.1 = pair))).map (fun p => p.1.2))

/-- The grounding index: time-sorted `(snapshot timestamp, node id set)`
pairs; the member sets are modelled as lists. -/
abbrev GroundingLookup := List (Time × List Int)

/-- The scan of `grounded_count`: walk forward keeping the last entry with
timestamp at or before `when`, stopping at the first later entry. -/
def grounded_pick (cur : Time × List Int) (when : Time) :
    GroundingLookup → Time × List Int
  | [] => cur
  | (t, s) :: rest => if t ≤ when then grounded_pick (t, s) when rest else cur

/-- `grounded_count(lookup, when, aid)`. -/
def grounded_count (lookup : GroundingLookup) (when : Time) (aid : Int) : Bool :=
  match lookup with
  | [] => false
  | first :: rest =>
    if when < first.1 then false
    else ((grounded_pick first when rest).2).contains aid

/-- `should_keep_by_top50`. -/
def should_keep_by_top50 (mode : String) (grounded_from grounded_to : Bool) : Bool :=
  if mode = "off" then true
  else if mode = "semi" then grounded_from || grounded_to
  else if mode = "strict" then grounded_from && grounded_to
  else true

/-- `maybe_expiry_ts`: `turns * HOURS_PER_TURN` hours past `base_ts`;
negative turns (permanent treaties) and missing turns yield no expiry. -/
def maybe_expiry_ts (base_ts : Time) (turns : Option Int) : Option Time :=
  match turns with
  | none => none
  | some t => if t < 0 then none else some (base_ts + t * HOURS_PER_TURN * 3600)

/-- `infer_type_if_needed`, returning the resolved type together with the
flags the call appends. -/
def infer_type_if_needed (event : NormEvent) (active : Active) : String × List Flag :=
  let action := normalize_action (some event.action)
  let type_norm := norm_treaty_type (some event.treaty_type)
  if type_norm ≠ "" ∧ type_norm ≠ "UNKNOWN" then (type_norm, [])
  else
    let pair := (event.pair_min_id, event.pair_max_id)
    let candidates := candidate_types_for_pair active pair
    let fallback : String × List Flag :=
      if action = "extended" then
        (type_norm, [Flag.mk "warning" "extended_without_inferable_type"])
      else (type_norm, [])
    match candidates with
    | [inferred] =>
      if action = "extended" ∨ action = "cancelled" ∨ action = "expired" ∨ action = "ended" then
        (inferred, [Flag.mk "info" "inferred_missing_treaty_type"])
      else fallback
    | _ => fallback

/-! ## The reconciliation engine (`reconcile_events`) -/
/-- Configuration slice of `reconcile_events`. -/
structure ReconCfg where
  grounding_lookup : GroundingLookup
  top50_mode : String
  infer_expiry_cancels : Bool
  infer_deletion_cancels : Bool

/-- The engine's mutable state during replay. -/
structure ReconState where
  active : Active
  alliance_names : List (Int × String)
  out : List ReconRecord
  flags : List Flag
  next_event_sequence : Nat

def init_state : ReconState :=
  { active := [], alliance_names := [], out := [], flags := [], next_event_sequence := 0 }

/-- The tail of `append_record`: stamp the next sequence number and compute
the event id over the stamped record. -/
def finish_record (seq : Nat) (r : ReconRecord) : ReconRecord :=
  let r1 := { r with event_sequence := seq }
  { r1 with event_id := event_id r1 }

/-- `append_record`. -/
def append_record (s : ReconState) (r : ReconRecord) : ReconState :=
  { s with out := s.out ++ [finish_record s.next_event_sequence r],
           next_event_sequence := s.next_event_sequence + 1 }

/-- `remember_name`. -/
def remember_name (names : List (Int × String)) (aid : Int) (raw : Option String) :
    List (Int × String) :=
  let name := clean_alliance_name raw
  if name ≠ "" then dict_set names aid name else names

/-- `resolve_name`, returning the possibly-updated name dict and the name. -/
def resolve_name (names : List (Int × String)) (aid : Int) (preferred : Option String) :
    List (Int × String) × String :=
  let p := clean_alliance_name preferred
  if p ≠ "" then (dict_set names aid p, p)
  else (names, clean_alliance_name (dict_get names aid))

/-- Bound check of `flush_expired`: `none` models the final flush at
`datetime.max`, which every recorded expiry instant is at or before. -/
def expires_due (exp : Time) (now : Option Time) : Bool :=
  match now with
  | some n => exp ≤ n
  | none => true

/-- The `inferred_cancelled` record emitted by one expiry flush. -/
def expiry_record (cfg : ReconCfg) (from_name to_name : String)
    (entry : TreatyKey × TreatyState) (exp : Time) : ReconRecord :=
  let pair := entry.1.1
  let grounded_from := grounded_count cfg.grounding_lookup exp pair.1
  let grounded_to := grounded_count cfg.grounding_lookup exp pair.2
  { timestamp := exp
    action := "inferred_cancelled"
    treaty_type := entry.1.2
    from_alliance_id := pair.1
    from_alliance_name := from_name
    to_alliance_id := pair.2
    to_alliance_name := to_name
    pair_min_id := pair.1
    pair_max_id := pair.2
    source := "expiry_inferred"
    source_ref := entry.2.last_event_id
    confidence := "low"
    inferred := true
    inference_reason := some "time_remaining_elapsed_without_terminal_event"
    time_remaining_turns := none
    grounded_from := grounded_from
    grounded_to := grounded_to
    grounded_keep := should_keep_by_top50 cfg.top50_mode grounded_from grounded_to
    noise_filtered := false
    noise_reason := none
    event_sequence := 0
    event_id := "" }

/-- One entry of the `flush_expired` scan: when the entry carries an expiry
at or before `now`, emit the `inferred_cancelled` record and drop the entry. -/
def flush_entry (cfg : ReconCfg) (now : Option Time) (s : ReconState)
    (entry : TreatyKey × TreatyState) : ReconState :=
  match entry.2.expires_at with
  | some exp =>
    if expires_due exp now then
      let nf := resolve_name s.alliance_names entry.1.1.1 none
      let nt := resolve_name nf.1 entry.1.1.2 none
      append_record { s with alliance_names := nt.1, active := dict_del s.active entry.1 }
        (expiry_record cfg nf.2 nt.2 entry exp)
    else s
  | none => s

/-- `flush_expired(now)`: scan a snapshot of the active map in insertion
order; only active when expiry inference is enabled. -/
def flush_expired (cfg : ReconCfg) (s : ReconState) (now : Option Time) : ReconState :=
  if cfg.infer_expiry_cancels then s.active.foldl (flush_entry cfg now) s else s

/-- `aid in pair` for the deletion-marker scan. -/
def deletion_entry_matches (aid : Int) (entry : TreatyKey × TreatyState) : Bool :=
  decide (entry.1.1.1 = aid) || decide (entry.1.1.2 = aid)

/-- The `inferred_cancelled` record emitted for one relationship closed by
a deletion marker. -/
def deletion_record (cfg : ReconCfg) (from_name to_name : String)
    (entry : TreatyKey × TreatyState) (ts : Time) (ref : String) : ReconRecord :=
  let pair := entry.1.1
  let grounded_from := grounded_count cfg.grounding_lookup ts pair.1
  let grounded_to := grounded_count cfg.grounding_lookup ts pair.2
  { timestamp := ts
    action := "inferred_cancelled"
    treaty_type := entry.1.2
    from_alliance_id := pair.1
    from_alliance_name := from_name
    to_alliance_id := pair.2
    to_alliance_name := to_name
    pair_min_id := pair.1
    pair_max_id := pair.2
    source := "deletion_inferred"
    source_ref := ref
    confidence := "medium"
    inferred := true
    inference_reason := some "alliance_membership_zero"
    time_remaining_turns := none
    grounded_from := grounded_from
    grounded_to := grounded_to
    grounded_keep := should_keep_by_top50 cfg.top50_mode grounded_from grounded_to
    noise_filtered := false
    noise_reason := none
    event_sequence := 0
    event_id := "" }

/-- One closed relationship of the deletion-marker scan. -/
def delete_entry (cfg : ReconCfg) (ts : Time) (ref : String) (s : ReconState)
    (entry : TreatyKey × TreatyState) : ReconState :=
  let nf := resolve_name s.alliance_names entry.1.1.1 none
  let nt := resolve_name nf.1 entry.1.1.2 none
  append_record { s with alliance_names := nt.1, active := dict_del s.active entry.1 }
    (deletion_record cfg nf.2 nt.2 entry ts ref)

/-- The `alliance_zero_members` branch of the replay loop. -/
def process_marker (cfg : ReconCfg) (s : ReconState) (m : ZeroMarker) : ReconState :=
  if cfg.infer_deletion_cancels then
    (s.active.filter (deletion_entry_matches m.alliance_id)).foldl
      (delete_entry cfg m.timestamp m.source_ref) s
  else s

/-- The state-tracker update of the replay loop (lines applying `signed`,
`extended` and terminal actions to `active`). -/
def apply_tracker (active : Active) (pair : Pair) (type_norm action : String)
    (current_ts : Time) (turns : Option Int) (ref : String) : Active :=
  if action = "signed" then
    dict_set active (pair, type_norm)
      { treaty_type := type_norm, opened_at := current_ts,
        expires_at := maybe_expiry_ts current_ts turns, last_event_id := ref }
  else if action = "extended" then
    match dict_get active (pair, type_norm) with
    | none =>
      dict_set active (pair, type_norm)
        { treaty_type := type_norm, opened_at := current_ts,
          expires_at := maybe_expiry_ts current_ts turns, last_event_id := ref }
    | some st =>
      dict_set active (pair, type_norm)
        { st with expires_at := maybe_expiry_ts current_ts turns, last_event_id := ref }
  else if TERMINAL_ACTIONS.contains action then
    dict_del active (pair, type_norm)
  else active

/-- The record emitted for an ordinary event, annotated with grounding. -/
def event_record (cfg : ReconCfg) (e : NormEvent) (action type_norm : String)
    (from_name to_name : String) : ReconRecord :=
  let grounded_from := grounded_count cfg.grounding_lookup e.timestamp e.from_alliance_id
  let grounded_to := grounded_count cfg.grounding_lookup e.timestamp e.to_alliance_id
  { timestamp := e.timestamp
    action := action
    treaty_type := type_norm
    from_alliance_id := e.from_alliance_id
    from_alliance_name := from_name
    to_alliance_id := e.to_alliance_id
    to_alliance_name := to_name
    pair_min_id := e.pair_min_id
    pair_max_id := e.pair_max_id
    source := e.source
    source_ref := e.source_ref
    confidence := e.confidence
    inferred := e.inferred
    inference_reason := e.inference_reason
    time_remaining_turns := e.time_remaining_turns
    grounded_from := grounded_from
    grounded_to := grounded_to
    grounded_keep := should_keep_by_top50 cfg.top50_mode grounded_from grounded_to
    noise_filtered := false
    noise_reason := none
    event_sequence := 0
    event_id := "" }

/-- The ordinary-event branch of the replay loop: type inference, the
`empty`/`UNKNOWN` flagging, the tracker update, grounding annotation and
record emission. -/
def process_event (cfg : ReconCfg) (s : ReconState) (e : NormEvent) : ReconState :=
  let current_ts := e.timestamp
  let action := normalize_action (some e.action)
  let pair : Pair := (e.pair_min_id, e.pair_max_id)
  let inferred := infer_type_if_needed e s.active
  let type_norm := inferred.1
  let s := { s with flags := s.flags ++ inferred.2 }
  if type_norm = "" then
    { s with flags := s.flags ++ [Flag.mk "warning" "empty_treaty_type_after_inference"] }
  else
    let s :=
      if type_norm = "UNKNOWN" then
        { s with flags := s.flags ++ [Flag.mk "warning" "unknown_treaty_type_event"] }
      else s
    let active := apply_tracker s.active pair type_norm action current_ts
      e.time_remaining_turns e.source_ref
    let nf := resolve_name s.alliance_names e.from_alliance_id (some e.from_alliance_name)
    let nt := resolve_name nf.1 e.to_alliance_id (some e.to_alliance_name)
    append_record { s with active := active, alliance_names := nt.1 }
      (event_record cfg e action type_norm nf.2 nt.2)

def item_ts : StreamItem → Time
  | .ev e => e.timestamp
  | .marker m => m.timestamp

def item_source : StreamItem → String
  | .ev e => e.source
  | .marker m => m.source

def item_source_ref : StreamItem → String
  | .ev e => e.source_ref
  | .marker m => m.source_ref

/-- The name-remembering step at the top of the replay loop (markers carry
no `from`/`to` fields). -/
def stream_remember (s : ReconState) : StreamItem → ReconState
  | .ev e =>
    let names := remember_name s.alliance_names e.from_alliance_id (some e.from_alliance_name)
    { s with alliance_names := remember_name names e.to_alliance_id (some e.to_alliance_name) }
  | .marker _ => s

/-- One iteration of the replay loop. -/
def recon_step (cfg : ReconCfg) (s : ReconState) (item : StreamItem) : ReconState :=
  let s := flush_expired cfg s (some (item_ts item))
  let s := stream_remember s item
  match item with
  | .marker m => process_marker cfg s m
  | .ev e => process_event cfg s e

/-- Lexicographic order on `(timestamp, nat, string)` sort keys. -/
def lex3_le (a b : Time × Nat × String) : Prop :=
  a.1 < b.1 ∨ (a.1 = b.1 ∧ (a.2.1 < b.2.1 ∨ (a.2.1 = b.2.1 ∧ a.2.2 ≤ b.2.2)))

instance (a b : Time × Nat × String) : Decidable (lex3_le a b) := by
  unfold lex3_le; exact inferInstance

/-- Totality of the lexicographic key order (used by the sort instances). -/
def lex3_le_total (a b : Time × Nat × String) : lex3_le a b ∨ lex3_le b a := by
  rcases a with ⟨a1, a2, a3⟩; rcases b with ⟨b1, b2, b3⟩
  unfold lex3_le
  rcases lt_trichotomy a1 b1 with h | h | h
  · exact Or.inl (Or.inl h)
  · subst h
    rcases lt_trichotomy a2 b2 with h2 | h2 | h2
    · exact Or.inl (Or.inr ⟨rfl, Or.inl h2⟩)
    · subst h2
      rcases le_total a3 b3 with h3 | h3
      · exact Or.inl (Or.inr ⟨rfl, Or.inr ⟨rfl, h3⟩⟩)
      · exact Or.inr (Or.inr ⟨rfl, Or.inr ⟨rfl, h3⟩⟩)
    · exact Or.inr (Or.inr ⟨rfl, Or.inl h2⟩)
  · exact Or.inr (Or.inl h)

/-- Transitivity of the lexicographic key order (used by the sort instances). -/
def lex3_le_trans {a b c : Time × Nat × String}
    (hab : lex3_le a b) (hbc : lex3_le b c) : lex3_le a c := by
  rcases a with ⟨a1, a2, a3⟩; rcases b with ⟨b1, b2, b3⟩; rcases c with ⟨c1, c2, c3⟩
  unfold lex3_le at *
  rcases hab with h | ⟨rfl, h⟩
  · rcases hbc with h2 | ⟨rfl, h2⟩
    · exact Or.inl (h.trans h2)
    · exact Or.inl h
  · rcases hbc with h2 | ⟨rfl, h2⟩
    · exact Or.inl h2
    · refine Or.inr ⟨rfl, ?_⟩
      rcases h with h | ⟨rfl, h⟩
      · rcases h2 with h2 | ⟨rfl, h2⟩
        · exact Or.inl (h.trans h2)
        · exact Or.inl h
      · rcases h2 with h2 | ⟨rfl, h2⟩
        · exact Or.inl h2
        · exact Or.inr ⟨rfl, le_trans h h2⟩

/-- `stream_sort_key`: `(timestamp, source priority, source_ref)` with
priority 0 for `bot`, 1 for `archive_delta`, 2 otherwise. -/
def source_priority (source : String) : Nat :=
  if source = "bot" then 0 else if source = "archive_delta" then 1 else 2

def stream_key (item : StreamItem) : Time × Nat × String :=
  (item_ts item, source_priority (item_source item), item_source_ref item)

def stream_le (a b : StreamItem) : Prop := lex3_le (stream_key a) (stream_key b)

instance (a b : StreamItem) : Decidable (stream_le a b) := by
  unfold stream_le; exact inferInstance

instance : IsTotal StreamItem stream_le := ⟨fun a b => lex3_le_total (stream_key a) (stream_key b)⟩

instance : IsTrans StreamItem stream_le := ⟨fun _ _ _ => lex3_le_trans⟩

/-- Final ordering key of the emitted log:
`(timestamp, event_sequence, event_id)`. -/
def out_key (r : ReconRecord) : Time × Nat × String :=
  (r.timestamp, r.event_sequence, r.event_id)

def out_le (a b : ReconRecord) : Prop := lex3_le (out_key a) (out_key b)

instance (a b : ReconRecord) : Decidable (out_le a b) := by
  unfold out_le; exact inferInstance

instance : IsTotal ReconRecord out_le := ⟨fun a b => lex3_le_total (out_key a) (out_key b)⟩

instance : IsTrans ReconRecord out_le := ⟨fun _ _ _ => lex3_le_trans⟩

/-- The merged, stably sorted input stream of `reconcile_events`. -/
def merged_stream (cfg : ReconCfg) (bot archive : List NormEvent)
    (markers : List ZeroMarker) : List StreamItem :=
  let all_stream :=
    bot.map StreamItem.ev ++ archive.map StreamItem.ev ++
      (if cfg.infer_deletion_cancels then markers.map StreamItem.marker else [])
  List.insertionSort stream_le all_stream

/-- `reconcile_events` up to (and including) the final unbounded expiry
flush, exposing the engine's full final state. -/
def reconcile_core (cfg : ReconCfg) (bot archive : List NormEvent)
    (markers : List ZeroMarker) : ReconState :=
  let s := (merged_stream cfg bot archive markers).foldl (recon_step cfg) init_state
  flush_expired cfg s none

/-- `reconcile_events`: the final state's emitted records sorted by
`(timestamp, event_sequence, event_id)`, together with the flags. -/
def reconcile_events (cfg : ReconCfg) (bot archive : List NormEvent)
    (markers : List ZeroMarker) : List ReconRecord × List Flag :=
  let s := reconcile_core cfg bot archive markers
  (List.insertionSort out_le s.out, s.flags)

/-! ## Claim C4: bot-event loading of malformed records -/
/-- A record whose `from_alliance_id` is missing: `int(rec.get(...))` raises. -/
def c4_bad_record : RawBotRecord :=
  { timestamp := some 0, action := some "signed", treaty_type := some "MDP",
    from_alliance_id := none, from_alliance_name := some "A",
    to_alliance_id := some 2, to_alliance_name := some "B",
    time_remaining_turns := none }

def c4_missing_action : RawBotRecord :=
  { timestamp := some 5, action := none, treaty_type := some "MDP",
    from_alliance_id := some 1, from_alliance_name := some "A",
    to_alliance_id := some 2, to_alliance_name := some "B",
    time_remaining_turns := none }

def c4_bad_upgrade : RawBotRecord :=
  { timestamp := some 5, action := some "upgraded", treaty_type := some "MDP",
    from_alliance_id := some 1, from_alliance_name := some "A",
    to_alliance_id := some 2, to_alliance_name := some "B",
    time_remaining_turns := none }

/-! ## Claim C5: expiry inference on a lone signed event -/
def c5_cfg : ReconCfg :=
  { grounding_lookup := [], top50_mode := "off",
    infer_expiry_cancels := true, infer_deletion_cancels := false }

/-- A single bot `signed MDP` event with `time_remaining_turns = 12`. -/
def c5_event (t : Time) : NormEvent :=
  { timestamp := t, action := "signed", treaty_type := "MDP",
    from_alliance_id := 1, from_alliance_name := "A",
    to_alliance_id := 2, to_alliance_name := "B",
    pair_min_id := 1, pair_max_id := 2, source := "bot", source_ref := "bot:0",
    confidence := "high", inferred := false, inference_reason := none,
    time_remaining_turns := some 12 }

/-- The emitted signed record of the C5 run, before sequence stamping. -/
def c5_signed_base (t : Time) : ReconRecord :=
  { timestamp := t, action := "signed", treaty_type := "MDP",
    from_alliance_id := 1, from_alliance_name := "A",
    to_alliance_id := 2, to_alliance_name := "B",
    pair_min_id := 1, pair_max_id := 2, source := "bot", source_ref := "bot:0",
    confidence := "high", inferred := false, inference_reason := none,
    time_remaining_turns := some 12, grounded_from := false, grounded_to := false,
    grounded_keep := true, noise_filtered := false, noise_reason := none,
    event_sequence := 0, event_id := "" }

/-- The inferred expiry record of the C5 run, before sequence stamping. -/
def c5_exp_base (t : Time) : ReconRecord :=
  { timestamp := t + 12 * 2 * 3600, action := "inferred_cancelled", treaty_type := "MDP",
    from_alliance_id := 1, from_alliance_name := "A",
    to_alliance_id := 2, to_alliance_name := "B",
    pair_min_id := 1, pair_max_id := 2, source := "expiry_inferred", source_ref := "bot:0",
    confidence := "low", inferred := true,
    inference_reason := some "time_remaining_elapsed_without_terminal_event",
    time_remaining_turns := none, grounded_from := false, grounded_to := false,
    grounded_keep := true, noise_filtered := false, noise_reason := none,
    event_sequence := 0, event_id := "" }

/-! ## Claim C1, counterexample: `extended` creates a tracker entry -/
def c1_cfg : ReconCfg :=
  { grounding_lookup := [], top50_mode := "off",
    infer_expiry_cancels := false, infer_deletion_cancels := false }

/-- A lone bot `extended MDP` event: no `signed` ever occurs. -/
def c1_ext_event : NormEvent :=
  { timestamp := 0, action := "extended", treaty_type := "MDP",
    from_alliance_id := 1, from_alliance_name := "A",
    to_alliance_id := 2, to_alliance_name := "B",
    pair_min_id := 1, pair_max_id := 2, source := "bot", source_ref := "bot:0",
    confidence := "high", inferred := false, inference_reason := none,
    time_remaining_turns := none }

/-! ## Claim C1: which operations create and destroy tracker entries -/
def active_has (active : Active) (k : TreatyKey) : Bool :=
  active.any (fun p => decide (p.1 = k))

def opens_state (a : String) : Bool :=
  decide (a = "signed") || decide (a = "extended")

def is_terminal_action (a : String) : Bool :=
  TERMINAL_ACTIONS.contains a

def rec_key (r : ReconRecord) : TreatyKey :=
  ((r.pair_min_id, r.pair_max_id), r.treaty_type)

def relevant (k : TreatyKey) (r : ReconRecord) : Bool :=
  decide (rec_key r = k) && (opens_state r.action || is_terminal_action r.action)

def last_open (out : List ReconRecord) (k : TreatyKey) : Bool :=
  match (out.filter (relevant k)).getLast? with
  | some r => opens_state r.action
  | none => false

def TrackerInv (s : ReconState) : Prop :=
  ∀ k, active_has s.active k = last_open s.out k

def c9_cfg : ReconCfg :=
  { grounding_lookup := [], top50_mode := "off",
    infer_expiry_cancels := false, infer_deletion_cancels := false }

def c9_event : NormEvent :=
  { timestamp := 0, action := "signed", treaty_type := "UNKNOWN",
    from_alliance_id := 1, from_alliance_name := "A",
    to_alliance_id := 2, to_alliance_name := "B",
    pair_min_id := 1, pair_max_id := 2, source := "bot", source_ref := "bot:0",
    confidence := "high", inferred := false, inference_reason := none,
    time_remaining_turns := none }

/-! ## Claim C10: grounding only affects output membership -/
/-- Re-annotate a record's `grounded_keep` under a grounding mode, from the
grounding bits stored on the record itself. -/
def set_keep (mode : String) (r : ReconRecord) : ReconRecord :=
  { r with grounded_keep := should_keep_by_top50 mode r.grounded_from r.grounded_to }

/-- Re-annotate a whole engine state. -/
def ann_state (mode : String) (s : ReconState) : ReconState :=
  { s with out := s.out.map (set_keep mode) }

/-- The grounding filter of `main` (applied only when the mode is not
`off`, after the full reconciliation replay). -/
def grounding_filter (mode : String) (records : List ReconRecord) : List ReconRecord :=
  if mode ≠ "off" then records.filter (fun r => r.grounded_keep) else records

/-! ## The noise filter (`apply_noise_filter`) -/
/-- First-occurrence deduplication with a seen accumulator (structural, so
it reduces in the kernel). -/
def uniq_aux {α : Type} [DecidableEq α] (seen : List α) : List α → List α
  | [] => []
  | x :: rest =>
    if seen.contains x then uniq_aux seen rest
    else x :: uniq_aux (x :: seen) rest

/-- First-occurrence deduplication, the key order of a Python dict built by
appending (`defaultdict` iteration order). -/
def uniq_list {α : Type} [DecidableEq α] (l : List α) : List α := uniq_aux [] l

/-- The `(pair_min_id, pair_max_id, treaty_type)` grouping key of the
noise filter and the churn collapser (`rec_key` of a record). -/
def group_idxs (events : List ReconRecord) (k : TreatyKey) : List Nat :=
  (List.range events.length).filter
    (fun i => decide (rec_key (events.getD i default) = k))

/-- Python `max` on two ints, written out so it reduces in the kernel. -/
def int_max (a b : Int) : Int := if a ≤ b then b else a

/-- Python `max` on two naturals. -/
def nat_max (a b : Nat) : Nat := if a ≤ b then b else a

/-- `timedelta(hours=max(1, int(window_hours)))` in seconds. -/
def noise_window (window_hours : Int) : Int := (int_max 1 window_hours) * 3600

/-- The f-string `opposite_action_within_{window_hours}h`. -/
def noise_reason_str (window_hours : Int) : String :=
  "opposite_action_within_" ++ toString window_hours ++ "h"

/-- The pair condition of the noise filter: opposite actions (either
order), a delta in `[0, window]`, both records bot-sourced. -/
def noise_cond (events : List ReconRecord) (window_hours : Int) (p c : Nat) : Bool :=
  let prev := events.getD p default
  let curr := events.getD c default
  (decide (prev.action = "signed") && decide (curr.action = "cancelled") ||
   decide (prev.action = "cancelled") && decide (curr.action = "signed")) &&
  decide (0 ≤ curr.timestamp - prev.timestamp) &&
  decide (curr.timestamp - prev.timestamp ≤ noise_window window_hours) &&
  decide (prev.source = "bot") && decide (curr.source = "bot")

/-- Positionally adjacent members of one group. -/
def adjacent_pairs (g : List Nat) : List (Nat × Nat) := g.zip g.tail

/-- Whether index `i` gets `noise_filtered` set: it partakes, as either
side, in a qualifying adjacent pair of its own group. -/
def noise_marked (events : List ReconRecord) (window_hours : Int) (i : Nat) : Bool :=
  let g := group_idxs events (rec_key (events.getD i default))
  (adjacent_pairs g).any (fun pc =>
    (decide (i = pc.1) || decide (i = pc.2)) &&
      noise_cond events window_hours pc.1 pc.2)

/-- The marking `ev["noise_filtered"] = True`, `ev["noise_reason"] = ...`. -/
def mark_record (window_hours : Int) (ev : ReconRecord) : ReconRecord :=
  { ev with noise_filtered := true,
            noise_reason := some (noise_reason_str window_hours) }

/-- The in-place marking pass as a functional map over positions. -/
def noise_annotate (events : List ReconRecord) (window_hours : Int) : List ReconRecord :=
  (List.range events.length).map (fun i =>
    if noise_marked events window_hours i then
      mark_record window_hours (events.getD i default)
    else events.getD i default)

/-- One `noise_pair_filtered` info flag per qualifying adjacent pair, in
group-key first-occurrence order. -/
def noise_flags (events : List ReconRecord) (window_hours : Int) : List Flag :=
  (uniq_list (events.map rec_key)).flatMap (fun k =>
    (adjacent_pairs (group_idxs events k)).filterMap (fun pc =>
      if noise_cond events window_hours pc.1 pc.2 then
        some (Flag.mk "info" "noise_pair_filtered")
      else none))

/-- `apply_noise_filter`. -/
def apply_noise_filter (events : List ReconRecord) (window_hours : Int)
    (keep_noise : Bool) : List ReconRecord × List Flag :=
  let annotated := noise_annotate events window_hours
  let flags := noise_flags events window_hours
  if keep_noise then (annotated, flags)
  else (annotated.filter (fun ev => !ev.noise_filtered), flags)

/-! ## The churn collapser (`apply_churn_collapse`) -/
/-- `bot`-sourced `signed`/`cancelled` records are churn-eligible. -/
def churn_eligible (ev : ReconRecord) : Bool :=
  decide (ev.source = "bot") &&
    (decide (ev.action = "signed") || decide (ev.action = "cancelled"))

/-- The eligible index bucket of one key, in positional order. -/
def elig_idxs (events : List ReconRecord) (k : TreatyKey) : List Nat :=
  (List.range events.length).filter (fun i =>
    churn_eligible (events.getD i default) &&
      decide (rec_key (events.getD i default) = k))

/-- The eligible keys in first-occurrence order. -/
def elig_keys (events : List ReconRecord) : List TreatyKey :=
  uniq_list ((events.filter churn_eligible).map rec_key)

/-- The greedy clustering scan, on fuel so that it is structurally
recursive (each step consumes at least one index, so the index-list length
is enough fuel). -/
def clusters_fuel (events : List ReconRecord) (window : Int) :
    Nat → List Nat → List (List Nat)
  | 0, _ => []
  | _, [] => []
  | fuel + 1, i :: rest =>
    let start_ts := (events.getD i default).timestamp
    let inCluster := rest.takeWhile
      (fun j => decide ((events.getD j default).timestamp - start_ts ≤ window))
    (i :: inCluster) :: clusters_fuel events window fuel (rest.drop inCluster.length)

/-- The greedy clustering scan: each cluster starts at the next unconsumed
index and extends while the timestamp stays within `window` of the
cluster-start timestamp. -/
def clusters (events : List ReconRecord) (window : Int) (idxs : List Nat) :
    List (List Nat) :=
  clusters_fuel events window idxs.length idxs

/-- The qualification tests and collapse of one cluster: `some removed`
when the cluster collapses (one flag is emitted), `none` when it is left
untouched. -/
def cluster_result (events : List ReconRecord) (minimum : Int)
    (cluster : List Nat) : Option (List Nat) :=
  if (cluster.length : Int) < minimum then none
  else
    let signed_idxs := cluster.filter
      (fun i => decide ((events.getD i default).action = "signed"))
    let cancelled_idxs := cluster.filter
      (fun i => decide ((events.getD i default).action = "cancelled"))
    if signed_idxs.isEmpty || cancelled_idxs.isEmpty then none
    else
      let tss := cluster.map (fun i => (events.getD i default).timestamp)
      let uniq := uniq_list tss
      let max_same := (uniq.map (fun t => tss.count t)).foldl nat_max 0
      if max_same < 4 then none
      else if uniq.length > nat_max 4 (cluster.length / 3) then none
      else
        let net : Int := (signed_idxs.length : Int) - (cancelled_idxs.length : Int)
        if 2 < net.natAbs then none
        else
          let keep : List Nat :=
            if net > 0 then signed_idxs.drop (signed_idxs.length - net.toNat)
            else if net < 0 then
              cancelled_idxs.drop (cancelled_idxs.length - (-net).toNat)
            else []
          let removed := cluster.filter (fun i => !(keep.contains i))
          if removed.isEmpty then none else some removed

/-- `apply_churn_collapse`. -/
def apply_churn_collapse (events : List ReconRecord) (window_minutes : Int)
    (min_events : Int) : List ReconRecord × List Flag :=
  let window := (int_max 1 window_minutes) * 60
  let minimum : Int := int_max 2 min_events
  let collapsed : List (List Nat) := (elig_keys events).flatMap (fun k =>
    if (elig_idxs events k).length < minimum then []
    else (clusters events window (elig_idxs events k)).filterMap
      (cluster_result events minimum))
  let removed := collapsed.flatten
  let flags := collapsed.map (fun _ => Flag.mk "info" "churn_cluster_collapsed")
  if removed.isEmpty then (events, flags)
  else ((List.range events.length).filterMap (fun i =>
    if removed.contains i then none else some (events.getD i default)), flags)

/-! ## The post-pass order of `main` -/
/-- The configuration slice of `main` that drives the post passes. -/
structure PostCfg where
  top50_mode : String
  collapse_churn : Bool
  churn_window_minutes : Int
  churn_min_events : Int
  filter_noise : Bool
  noise_window_hours : Int
  keep_noise : Bool

/-- The post passes of `main` on the reconciled log: the grounding keep
filter, then (when enabled) churn collapsing, then (when enabled) the
noise filter; the result is what is persisted and what the frame-index
builder consumes. -/
def main_post_passes (cfg : PostCfg) (reconciled : List ReconRecord) :
    List ReconRecord :=
  let r1 := if cfg.top50_mode ≠ "off" then
    reconciled.filter (fun r => r.grounded_keep) else reconciled
  let r2 := if cfg.collapse_churn then
    (apply_churn_collapse r1 cfg.churn_window_minutes cfg.churn_min_events).1 else r1
  let r3 := if cfg.filter_noise then
    (apply_noise_filter r2 cfg.noise_window_hours cfg.keep_noise).1 else r2
  r3

/-! ## Claim C3: order of the post passes -/
def c3_rec (i : Nat) : ReconRecord :=
  { timestamp := 0, action := if i % 2 = 0 then "signed" else "cancelled",
    treaty_type := "MDP", from_alliance_id := 1, from_alliance_name := "A",
    to_alliance_id := 2, to_alliance_name := "B", pair_min_id := 1, pair_max_id := 2,
    source := "bot", source_ref := "bot:" ++ toString i, confidence := "high",
    inferred := false, inference_reason := none, time_remaining_turns := none,
    grounded_from := false, grounded_to := false, grounded_keep := true,
    noise_filtered := false, noise_reason := none, event_sequence := i,
    event_id := "" }

/-- Five same-instant alternating bot records on one pair and type. -/
def c3_events : List ReconRecord := (List.range 5).map c3_rec

def c3_cfg : PostCfg :=
  { top50_mode := "off", collapse_churn := true, churn_window_minutes := 10,
    churn_min_events := 2, filter_noise := true, noise_window_hours := 24,
    keep_noise := false }

/-! ## Claim C8: the 30-event churn scenario -/
def count_action (a : String) (l : List ReconRecord) : Nat :=
  (l.filter (fun r => decide (r.action = a))).length

def c8_rec (i : Nat) : ReconRecord :=
  { timestamp := if i < 10 then 0 else 60 * ((i - 10) / 4 + 1),
    action := if i % 2 = 0 then "signed" else "cancelled",
    treaty_type := "MDP", from_alliance_id := 1, from_alliance_name := "A",
    to_alliance_id := 2, to_alliance_name := "B", pair_min_id := 1, pair_max_id := 2,
    source := "bot", source_ref := "bot:" ++ toString i, confidence := "high",
    inferred := false, inference_reason := none, time_remaining_turns := none,
    grounded_from := false, grounded_to := false, grounded_keep := true,
    noise_filtered := false, noise_reason := none, event_sequence := i,
    event_id := "" }

/-- A burst of 29 alternating bot `signed`/`cancelled` records on one pair
and type within 5 minutes: 10 records share timestamp 0 and the other 19
spread over 5 further timestamps, 15 signed and 14 cancelled (net 1), the
last record signed. -/
def c8_events : List ReconRecord := (List.range 29).map c8_rec

def c7_rec (i : Nat) (ts : Time) (act : String) : ReconRecord :=
  { timestamp := ts, action := act, treaty_type := "MDP",
    from_alliance_id := 1, from_alliance_name := "A",
    to_alliance_id := 2, to_alliance_name := "B", pair_min_id := 1, pair_max_id := 2,
    source := "bot", source_ref := "bot:" ++ toString i, confidence := "high",
    inferred := false, inference_reason := none, time_remaining_turns := none,
    grounded_from := false, grounded_to := false, grounded_keep := true,
    noise_filtered := false, noise_reason := none, event_sequence := i,
    event_id := "" }

/-- A `signed` and a `cancelled` one hour apart on the same pair and type. -/
def c7_events : List ReconRecord := [c7_rec 0 0 "signed", c7_rec 1 3600 "cancelled"]

/-! ## The frame-index builder (`build_frame_index`) -/
/-- The date bucket `str(timestamp)[:10]` of an ISO UTC timestamp, as the
floored day number. -/
def day_of (t : Time) : Int := Int.fdiv t 86400

/-- The builder state: flushed day buckets, the edge dictionary, the
`active_by_pair` map, and the current day's accumulating add/remove sets.
Timestamps are never empty here, so the source's `if not day: continue`
guard never fires. -/
structure FIState where
  day_keys : List Int
  event_end_offset_by_day : List Nat
  deltas : List (Finset ℕ × Finset ℕ)
  edge_dict : List (Nat × Int × Int × String)
  active : List (TreatyKey × Nat)
  current_day : Option Int
  day_add : Finset ℕ
  day_remove : Finset ℕ

def fi_init : FIState := ⟨[], [], [], [], [], none, ∅, ∅⟩

/-- `flush_day(day, end_offset_exclusive)`. -/
def fi_flush_day (s : FIState) (day : Int) (end_offset : Nat) : FIState :=
  { s with day_keys := s.day_keys ++ [day],
           event_end_offset_by_day := s.event_end_offset_by_day ++ [end_offset],
           deltas := s.deltas ++ [(s.day_add, s.day_remove)] }

/-- Resolve a replaced or terminated edge into the current day's delta:
cancel it out of the day's add set when it was added today, otherwise
record it in the day's remove set. -/
def fi_resolve (s : FIState) (previous : Nat) : FIState :=
  if previous ∈ s.day_add then { s with day_add := s.day_add.erase previous }
  else { s with day_remove := insert previous s.day_remove }

/-- One loop iteration of `build_frame_index` over `(event_index, event)`. -/
def fi_step (s : FIState) (ie : Nat × ReconRecord) : FIState :=
  let event_index := ie.1
  let event := ie.2
  let day := day_of event.timestamp
  let s := match s.current_day with
    | none => { s with current_day := some day }
    | some cd =>
      if day ≠ cd then
        let s := fi_flush_day s cd event_index
        { s with current_day := some day, day_add := ∅, day_remove := ∅ }
      else s
  let key := rec_key event
  let action := normalize_action (some event.action)
  if action = "signed" then
    let edge_id := s.edge_dict.length
    let s := { s with edge_dict := s.edge_dict ++
      [(event_index, event.pair_min_id, event.pair_max_id, event.treaty_type)] }
    let s := match dict_get s.active key with
      | some previous => fi_resolve s previous
      | none => s
    { s with active := dict_set s.active key edge_id,
             day_add := insert edge_id s.day_add }
  else if TERMINAL_ACTIONS.contains action then
    match dict_get s.active key with
    | some previous => fi_resolve { s with active := dict_del s.active key } previous
    | none => s
  else s

/-- The persisted artifact shape (`top_membership_by_day` is always empty
and not modelled). -/
structure FrameIndex where
  schema_version : Nat
  day_keys : List Int
  event_end_offset_by_day : List Nat
  edge_dict : List (Nat × Int × Int × String)
  active_edge_delta_by_day : List (List Nat × List Nat)

/-- `build_frame_index`. -/
def build_frame_index (events : List ReconRecord) : FrameIndex :=
  let s := events.enum.foldl fi_step fi_init
  let s := match s.current_day with
    | some cd => fi_flush_day s cd events.length
    | none => s
  { schema_version := 1,
    day_keys := s.day_keys,
    event_end_offset_by_day := s.event_end_offset_by_day,
    edge_dict := s.edge_dict,
    active_edge_delta_by_day :=
      s.deltas.map (fun d => (d.1.sort (· ≤ ·), d.2.sort (· ≤ ·))) }

/-- The `active_by_pair` evolution of the builder on its own, with the
fresh-edge-id counter: `signed` installs the next id for its key,
terminal actions clear the key, everything else is ignored. -/
def open_edges_step (an : List (TreatyKey × Nat) × Nat) (ev : ReconRecord) :
    List (TreatyKey × Nat) × Nat :=
  let action := normalize_action (some ev.action)
  let key := rec_key ev
  if action = "signed" then (dict_set an.1 key an.2, an.2 + 1)
  else if TERMINAL_ACTIONS.contains action then (dict_del an.1 key, an.2)
  else an

/-- The edge ids whose relationship instance is still open after replaying
`events`: the values of the builder's `active_by_pair` map. -/
def fi_open (events : List ReconRecord) : Finset ℕ :=
  ((events.foldl open_edges_step ([], 0)).1.map (fun p => p.2)).toFinset

/-- Day numbers of a log are non-decreasing (true of every sorted
reconciled log, whose timestamps are non-decreasing). -/
def days_mono (events : List ReconRecord) : Prop :=
  (events.map (fun e => day_of e.timestamp)).Chain' (· ≤ ·)

/-- Cumulative application of day deltas to an initially empty edge set. -/
def cum_delta (deltas : List (List Nat × List Nat)) : Finset ℕ :=
  deltas.foldl (fun S d => (S ∪ d.1.toFinset) \ d.2.toFinset) ∅

/-- Cumulative application on the internal `Finset` form. -/
def cum_fin (deltas : List (Finset ℕ × Finset ℕ)) : Finset ℕ :=
  deltas.foldl (fun S d => (S ∪ d.1) \ d.2) ∅

/-- In how many day buckets an edge id appears in the add set. -/
def count_adds (fi : FrameIndex) (e : ℕ) : Nat :=
  fi.active_edge_delta_by_day.countP (fun d => d.1.contains e)

/-- In how many day buckets an edge id appears in the remove set. -/
def count_removes (fi : FrameIndex) (e : ℕ) : Nat :=
  fi.active_edge_delta_by_day.countP (fun d => d.2.contains e)

/-! ## Claim C2 development: dictionary value sets -/
/-- The value set of an association list with natural-number values. -/
def val_set {α : Type} [DecidableEq α] (m : List (α × ℕ)) : Finset ℕ :=
  (m.map (fun p => p.2)).toFinset

/-! ## Claim C2 development: the builder invariant -/
/-- The day-rollover part of `fi_step`: flush the finished bucket when the
day changes. -/
def fi_day (s : FIState) (day : Int) (event_index : Nat) : FIState :=
  match s.current_day with
  | none => { s with current_day := some day }
  | some cd =>
    if day ≠ cd then
      let s := fi_flush_day s cd event_index
      { s with current_day := some day, day_add := ∅, day_remove := ∅ }
    else s

/-- The event-handling part of `fi_step`. -/
def fi_act (s : FIState) (event_index : Nat) (event : ReconRecord) : FIState :=
  let key := rec_key event
  let action := normalize_action (some event.action)
  if action = "signed" then
    let edge_id := s.edge_dict.length
    let s := { s with edge_dict := s.edge_dict ++
      [(event_index, event.pair_min_id, event.pair_max_id, event.treaty_type)] }
    let s := match dict_get s.active key with
      | some previous => fi_resolve s previous
      | none => s
    { s with active := dict_set s.active key edge_id,
             day_add := insert edge_id s.day_add }
  else if TERMINAL_ACTIONS.contains action then
    match dict_get s.active key with
    | some previous => fi_resolve { s with active := dict_del s.active key } previous
    | none => s
  else s

/-- In how many of the flushed deltas, plus the current-day set, an id
appears (`sel` picks the add or the remove side of a delta). -/
def cnt (sel : Finset ℕ × Finset ℕ → Finset ℕ)
    (deltas : List (Finset ℕ × Finset ℕ)) (cur : Finset ℕ) (x : ℕ) : Nat :=
  deltas.countP (fun d => decide (x ∈ sel d)) + (if x ∈ cur then 1 else 0)

/-- Total add-side appearances of an id. -/
def addC (deltas : List (Finset ℕ × Finset ℕ)) (cur : Finset ℕ) (x : ℕ) : Nat :=
  cnt (fun d => d.1) deltas cur x

/-- Total remove-side appearances of an id. -/
def remC (deltas : List (Finset ℕ × Finset ℕ)) (cur : Finset ℕ) (x : ℕ) : Nat :=
  cnt (fun d => d.2) deltas cur x

/-- The invariant of the `build_frame_index` loop after processing the
prefix `P` of the event log, with event indices `0 .. P.length - 1`. -/
structure FIInv (P : List ReconRecord) (s : FIState) : Prop where
  hactive : (s.active, s.edge_dict.length) = P.foldl open_edges_step ([], 0)
  hlen1 : s.event_end_offset_by_day.length = s.day_keys.length
  hlen2 : s.deltas.length = s.day_keys.length
  hoffs : ∀ i, i < s.deltas.length → s.event_end_offset_by_day.getD i 0 ≤ P.length
  hdays : ∀ i, i < s.deltas.length →
    cum_fin (s.deltas.take (i + 1)) =
      fi_open (P.take (s.event_end_offset_by_day.getD i 0))
  hcum : (cum_fin s.deltas ∪ s.day_add) \ s.day_remove = val_set s.active
  hsub : ∀ x ∈ s.day_add, x ∈ val_set s.active
  haddle : ∀ x, addC s.deltas s.day_add x ≤ 1
  hremle : ∀ x, remC s.deltas s.day_remove x ≤ addC s.deltas s.day_add x
  hopen : ∀ x ∈ val_set s.active,
    remC s.deltas s.day_remove x = 0 ∧ addC s.deltas s.day_add x = 1
  hfresh : ∀ x, s.edge_dict.length ≤ x →
    x ∉ val_set s.active ∧ addC s.deltas s.day_add x = 0 ∧
      remC s.deltas s.day_remove x = 0
  hkeys : (s.active.map Prod.fst).Nodup
  hvals : (s.active.map (fun p => p.2)).Nodup

/-- A small log: `signed MDP` on day 0, `signed MDP` again on day 1
(replacing the first edge), and `cancelled` on day 2. -/
def c2_rec (i : Nat) : ReconRecord :=
  { timestamp := 86400 * (i : Int), action := if i = 2 then "cancelled" else "signed",
    treaty_type := "MDP", from_alliance_id := 1, from_alliance_name := "A",
    to_alliance_id := 2, to_alliance_name := "B", pair_min_id := 1, pair_max_id := 2,
    source := "bot", source_ref := "bot:" ++ toString i, confidence := "high",
    inferred := false, inference_reason := none, time_remaining_turns := none,
    grounded_from := false, grounded_to := false, grounded_keep := true,
    noise_filtered := false, noise_reason := none, event_sequence := i,
    event_id := "" }

def c2_events : List ReconRecord := (List.range 3).map c2_rec


/-! # Theorems -/

/-- C4, counterexample: a bot record that merely lacks its
`from_alliance_id` makes `load_bot_events` raise instead of dropping the
record with a warning flag, so loading does not handle every missing
required field gracefully. -/
theorem load_bot_missing_id_aborts :
    load_bot_events [c4_bad_record] =
      Except.error "TypeError: from_alliance_id is not an int" := by
  rfl

/-- C4, amended: a record with a missing or unrecognizable action, or an
`upgraded`/`downgraded` record whose treaty type lacks the `->` arrow, is
dropped with a warning flag and processing continues with the remaining
records; but a record with a missing (or non-integer) `from_alliance_id`
makes loading raise, aborting the run. -/
theorem load_bot_malformed_handling (i : Nat) (r : RawBotRecord)
    (rest : List RawBotRecord) :
    (normalize_action r.action = "" →
      load_bot_events_from i (r :: rest) =
        (load_bot_events_from (i + 1) rest).map
          (fun p => (p.1, Flag.mk "warning" "missing_action" :: p.2)))
    ∧ (normalize_action r.action ≠ "" → r.from_alliance_id = none →
        load_bot_events_from i (r :: rest) =
          Except.error "TypeError: from_alliance_id is not an int")
    ∧ (∀ f t ts, r.from_alliance_id = some f → r.to_alliance_id = some t →
        r.timestamp = some ts →
        (normalize_action r.action = "upgraded" ∨ normalize_action r.action = "downgraded") →
        split_first_arrow (norm_treaty_type r.treaty_type).data = none →
        load_bot_events_from i (r :: rest) =
          (load_bot_events_from (i + 1) rest).map
            (fun p => (p.1, Flag.mk "warning" "upgrade_without_arrow_type" :: p.2))) := by
  refine ⟨fun h => ?_, fun h hn => ?_, fun f t ts hf ht hts hact harr => ?_⟩
  · simp [load_bot_events_from, h]
  · simp [load_bot_events_from, h, hn]
  · have hne : normalize_action r.action ≠ "" := by
      rcases hact with h | h <;> simp [h]
    simp [load_bot_events_from, hne, hf, ht, hts, hact, harr]

theorem load_bot_malformed_handling_witness :
    load_bot_events [c4_missing_action] =
      Except.ok ([], [Flag.mk "warning" "missing_action"])
    ∧ load_bot_events [c4_bad_upgrade] =
      Except.ok ([], [Flag.mk "warning" "upgrade_without_arrow_type"]) := by
  constructor
  · exact ((load_bot_malformed_handling 0 c4_missing_action []).1 (by decide)).trans rfl
  · exact (((load_bot_malformed_handling 0 c4_bad_upgrade []).2.2 1 2 5
      (by decide) (by decide) (by decide) (by decide) (by decide))).trans rfl

/-! ## Claim C6: the returned log is sorted -/
/-- C6: the reconciliation engine's returned record list (emitted after the
final expiry flush) is sorted by the key
`(timestamp, event_sequence, event_id)`, and consequently its timestamps
are non-decreasing even though lazily flushed expiry records are appended
out of chronological order during replay. -/
theorem reconcile_output_sorted (cfg : ReconCfg) (bot archive : List NormEvent)
    (markers : List ZeroMarker) :
    List.Sorted out_le (reconcile_events cfg bot archive markers).1
    ∧ List.Pairwise (fun a b : ReconRecord => a.timestamp ≤ b.timestamp)
        (reconcile_events cfg bot archive markers).1 := by
  have hs : List.Sorted out_le (reconcile_events cfg bot archive markers).1 :=
    List.sorted_insertionSort out_le _
  refine ⟨hs, hs.imp ?_⟩
  intro a b h
  rcases h with h | ⟨h1, _⟩
  · exact le_of_lt h
  · exact le_of_eq h1

set_option maxHeartbeats 8000000 in
/-- C5: with expiry inference enabled, a single bot `signed MDP` event with
`time_remaining_turns = 12` at timestamp `t` reconciles into exactly one
additional record: an `inferred_cancelled` of the same pair and type at
`t + 24` hours (12 turns at 2 hours per turn), with source
`expiry_inferred`, confidence `low` and inference reason
`time_remaining_elapsed_without_terminal_event`. -/
theorem expiry_inference_single_signed (t : Time) :
    ∃ r0 r1 : ReconRecord,
      (reconcile_events c5_cfg [c5_event t] [] []).1 = [r0, r1]
      ∧ r0.timestamp = t ∧ r0.action = "signed" ∧ r0.treaty_type = "MDP"
      ∧ r1.timestamp = t + 24 * 3600 ∧ r1.action = "inferred_cancelled"
      ∧ r1.treaty_type = "MDP" ∧ r1.pair_min_id = 1 ∧ r1.pair_max_id = 2
      ∧ r1.source = "expiry_inferred" ∧ r1.confidence = "low"
      ∧ r1.inference_reason = some "time_remaining_elapsed_without_terminal_event" := by
  refine ⟨finish_record 0 (c5_signed_base t), finish_record 1 (c5_exp_base t),
    ?_, rfl, rfl, rfl, ?_, rfl, rfl, rfl, rfl, rfl, rfl, rfl⟩
  · have hcore : (reconcile_core c5_cfg [c5_event t] [] []).out =
        [finish_record 0 (c5_signed_base t), finish_record 1 (c5_exp_base t)] := rfl
    have hle : out_le (finish_record 0 (c5_signed_base t))
        (finish_record 1 (c5_exp_base t)) := by
      unfold out_le lex3_le out_key
      left
      show t < t + 12 * 2 * 3600
      norm_num
    show List.insertionSort out_le (reconcile_core c5_cfg [c5_event t] [] []).out = _
    rw [hcore]
    simp [List.insertionSort, List.orderedInsert, hle]
  · show t + 12 * 2 * 3600 = t + 24 * 3600
    norm_num

/-- C1, counterexample: after replaying a stream consisting of a single
`extended` event, a `TreatyState` entry for `((1,2), MDP)` exists in the
engine's active map although no `signed` event for that key was ever
processed (no emitted record is a `signed`), refuting that only `signed`
creates entries. -/
theorem extended_creates_entry_counterexample :
    ((reconcile_core c1_cfg [c1_ext_event] [] []).active.any
        (fun p => decide (p.1 = ((1, 2), "MDP")))) = true
    ∧ ∀ r ∈ (reconcile_core c1_cfg [c1_ext_event] [] []).out,
        r.action ≠ "signed" := by
  decide

theorem any_map_replace {α β : Type} [DecidableEq α]
    (m : List (α × β)) (k0 k : α) (v : β) :
    ((m.map (fun p => if p.1 = k0 then (k0, v) else p)).any (fun p => decide (p.1 = k))) =
      (if k = k0 then m.any (fun p => decide (p.1 = k0))
       else m.any (fun p => decide (p.1 = k))) := by
  induction m with
  | nil => by_cases hkk : k = k0 <;> simp [hkk]
  | cons a l ih =>
    simp only [List.map_cons, List.any_cons]
    rw [ih]
    by_cases hkk : k = k0
    · subst hkk
      by_cases ha : a.1 = k <;> simp [ha]
    · by_cases ha : a.1 = k0
      · simp [ha, hkk, eq_false (Ne.symm hkk)]
      · simp [ha, hkk]

theorem any_key_dict_set {α β : Type} [DecidableEq α]
    (m : List (α × β)) (k0 k : α) (v : β) :
    (dict_set m k0 v).any (fun p => decide (p.1 = k)) =
      (decide (k = k0) || m.any (fun p => decide (p.1 = k))) := by
  unfold dict_set
  by_cases hv : m.any (fun p => decide (p.1 = k0))
  · rw [if_pos hv, any_map_replace]
    by_cases hkk : k = k0
    · subst hkk; simp [hv]
    · simp [hkk]
  · rw [if_neg hv, List.any_append]
    by_cases hkk : k = k0
    · subst hkk; simp [hv]
    · simp [hkk, eq_false (Ne.symm hkk), Bool.or_comm]

theorem any_key_dict_del {α β : Type} [DecidableEq α]
    (m : List (α × β)) (k0 k : α) :
    (dict_del m k0).any (fun p => decide (p.1 = k)) =
      (!decide (k = k0) && m.any (fun p => decide (p.1 = k))) := by
  unfold dict_del
  induction m with
  | nil => simp
  | cons a l ih =>
    simp only [List.any_cons]
    by_cases hk : a.1 = k0
    · rw [List.filter_cons_of_neg (by simp [hk])]
      rw [ih]
      by_cases hkk : k = k0
      · simp [hkk]
      · simp [hkk, hk, eq_false (Ne.symm hkk)]
    · rw [List.filter_cons_of_pos (by simp [hk])]
      simp only [List.any_cons]
      rw [ih]
      by_cases hkk : k = k0
      · subst hkk
        simp [eq_false (fun h : a.1 = k => hk h)]
      · simp [hkk, Bool.and_or_distrib_left]

theorem last_open_append (out : List ReconRecord) (k : TreatyKey) (r : ReconRecord) :
    last_open (out ++ [r]) k =
      if relevant k r then opens_state r.action else last_open out k := by
  unfold last_open
  rw [List.filter_append]
  by_cases h : relevant k r
  · simp [h, List.getLast?_concat]
  · simp [h]

theorem trackerInv_emit (active0 : Active) (out0 : List ReconRecord) (seq : Nat)
    (active' : Active) (names' : List (Int × String)) (fl : List Flag)
    (r : ReconRecord)
    (h : ∀ k, active_has active0 k = last_open out0 k)
    (hstep : ∀ k, active_has active' k =
      if relevant k (finish_record seq r) then
        opens_state (finish_record seq r).action
      else active_has active0 k) :
    TrackerInv (append_record (ReconState.mk active' names' out0 fl seq) r) := by
  intro k
  show active_has active' k = last_open (out0 ++ [finish_record seq r]) k
  rw [last_open_append, hstep k, h k]

theorem rec_key_finish (n : Nat) (r : ReconRecord) :
    rec_key (finish_record n r) = rec_key r := rfl

theorem action_finish (n : Nat) (r : ReconRecord) :
    (finish_record n r).action = r.action := rfl

theorem rec_key_expiry_record (cfg : ReconCfg) (a b : String)
    (entry : TreatyKey × TreatyState) (exp : Time) :
    rec_key (expiry_record cfg a b entry exp) = entry.1 := rfl

theorem action_expiry_record (cfg : ReconCfg) (a b : String)
    (entry : TreatyKey × TreatyState) (exp : Time) :
    (expiry_record cfg a b entry exp).action = "inferred_cancelled" := rfl

theorem rec_key_deletion_record (cfg : ReconCfg) (a b : String)
    (entry : TreatyKey × TreatyState) (ts : Time) (ref : String) :
    rec_key (deletion_record cfg a b entry ts ref) = entry.1 := rfl

theorem action_deletion_record (cfg : ReconCfg) (a b : String)
    (entry : TreatyKey × TreatyState) (ts : Time) (ref : String) :
    (deletion_record cfg a b entry ts ref).action = "inferred_cancelled" := rfl

theorem rec_key_event_record (cfg : ReconCfg) (e : NormEvent) (action ty a b : String) :
    rec_key (event_record cfg e action ty a b) = ((e.pair_min_id, e.pair_max_id), ty) := rfl

theorem action_event_record (cfg : ReconCfg) (e : NormEvent) (action ty a b : String) :
    (event_record cfg e action ty a b).action = action := rfl

/-- Closing a key while emitting a terminal record for it preserves the
tracker invariant. -/
theorem trackerInv_close (active0 : Active) (out0 : List ReconRecord) (seq : Nat)
    (names' : List (Int × String)) (fl : List Flag)
    (r : ReconRecord) (k0 : TreatyKey)
    (hk : rec_key r = k0)
    (ha : opens_state r.action = false)
    (ht : is_terminal_action r.action = true)
    (h : ∀ k, active_has active0 k = last_open out0 k) :
    TrackerInv (append_record
      (ReconState.mk (dict_del active0 k0) names' out0 fl seq) r) := by
  apply trackerInv_emit active0 out0 seq _ _ _ _ h
  intro k
  show (dict_del active0 k0).any (fun p => decide (p.1 = k)) = _
  rw [any_key_dict_del]
  rw [show relevant k (finish_record seq r) = decide (k0 = k) by
    simp [relevant, rec_key_finish, action_finish, hk, ha, ht]]
  rw [show opens_state (finish_record seq r).action = false by
    rw [action_finish, ha]]
  by_cases hkk : k = k0
  · simp [hkk]
  · simp [hkk, Ne.symm hkk, active_has]

theorem trackerInv_flush_entry (cfg : ReconCfg) (now : Option Time)
    (s : ReconState) (entry : TreatyKey × TreatyState) (h : TrackerInv s) :
    TrackerInv (flush_entry cfg now s entry) := by
  unfold flush_entry
  rcases hx : entry.2.expires_at with _ | exp
  · exact h
  · by_cases hdue : expires_due exp now
    · simp only [hdue, if_true]
      exact trackerInv_close s.active s.out s.next_event_sequence _ _ _ entry.1
        (rec_key_expiry_record ..)
        (by rw [action_expiry_record]; rfl) (by rw [action_expiry_record]; rfl) h
    · simp only [hdue, if_false]
      exact h

theorem foldl_pres {σ χ : Type} (P : σ → Prop) (f : σ → χ → σ)
    (hf : ∀ s x, P s → P (f s x)) :
    ∀ (l : List χ) (s : σ), P s → P (l.foldl f s)
  | [], _, hs => hs
  | x :: l, s, hs => foldl_pres P f hf l (f s x) (hf s x hs)

theorem trackerInv_flush_expired (cfg : ReconCfg) (s : ReconState)
    (now : Option Time) (h : TrackerInv s) :
    TrackerInv (flush_expired cfg s now) := by
  unfold flush_expired
  by_cases hc : cfg.infer_expiry_cancels
  · simp only [hc, if_true]
    exact foldl_pres TrackerInv _ (fun s x hs => trackerInv_flush_entry cfg now s x hs) _ _ h
  · simp only [hc, if_false]
    exact h

theorem trackerInv_delete_entry (cfg : ReconCfg) (ts : Time) (ref : String)
    (s : ReconState) (entry : TreatyKey × TreatyState) (h : TrackerInv s) :
    TrackerInv (delete_entry cfg ts ref s entry) := by
  unfold delete_entry
  exact trackerInv_close s.active s.out s.next_event_sequence _ _ _ entry.1
    (rec_key_deletion_record ..)
    (by rw [action_deletion_record]; rfl) (by rw [action_deletion_record]; rfl) h

theorem trackerInv_process_marker (cfg : ReconCfg) (s : ReconState)
    (m : ZeroMarker) (h : TrackerInv s) :
    TrackerInv (process_marker cfg s m) := by
  unfold process_marker
  by_cases hc : cfg.infer_deletion_cancels
  · simp only [hc, if_true]
    exact foldl_pres TrackerInv _
      (fun s x hs => trackerInv_delete_entry cfg m.timestamp m.source_ref s x hs) _ _ h
  · simp only [hc, if_false]
    exact h

theorem active_has_apply_tracker (active : Active) (pair : Pair)
    (ty action : String) (ts : Time) (turns : Option Int) (ref : String) (k : TreatyKey) :
    active_has (apply_tracker active pair ty action ts turns ref) k =
      if k = (pair, ty) then
        (if opens_state action then true
         else if is_terminal_action action then false
         else active_has active k)
      else active_has active k := by
  unfold apply_tracker active_has
  by_cases hs : action = "signed"
  · rw [if_pos hs, any_key_dict_set]
    have ho : opens_state action = true := by simp [opens_state, hs]
    by_cases hkk : k = (pair, ty) <;> simp [hkk, ho]
  · rw [if_neg hs]
    by_cases he : action = "extended"
    · rw [if_pos he]
      have ho : opens_state action = true := by simp [opens_state, he]
      rcases dict_get active (pair, ty) with _ | st <;>
        · rw [any_key_dict_set]
          by_cases hkk : k = (pair, ty) <;> simp [hkk, ho]
    · rw [if_neg he]
      have ho : opens_state action = false := by simp [opens_state, hs, he]
      by_cases hterm : TERMINAL_ACTIONS.contains action
      · rw [if_pos hterm, any_key_dict_del]
        have ht : is_terminal_action action = true := hterm
        by_cases hkk : k = (pair, ty) <;> simp [hkk, ho, ht]
      · rw [if_neg hterm]
        have ht : is_terminal_action action = false := by
          simpa [is_terminal_action] using hterm
        by_cases hkk : k = (pair, ty) <;> simp [hkk, ho, ht]

theorem trackerInv_flags (s : ReconState) (fl : List Flag) (h : TrackerInv s) :
    TrackerInv { s with flags := fl } := fun k => h k

theorem relevant_event_record (cfg : ReconCfg) (e : NormEvent)
    (action ty a b : String) (n : Nat) (k : TreatyKey) :
    relevant k (finish_record n (event_record cfg e action ty a b)) =
      (decide (k = ((e.pair_min_id, e.pair_max_id), ty)) &&
        (opens_state action || is_terminal_action action)) := by
  unfold relevant
  rw [rec_key_finish, rec_key_event_record, action_finish, action_event_record]
  congr 1
  simp [eq_comm]

theorem hstep_event (cfg : ReconCfg) (s0 : Active) (e : NormEvent)
    (ty : String) (n : Nat) (a b : String) (k : TreatyKey) :
    active_has (apply_tracker s0 (e.pair_min_id, e.pair_max_id) ty
        (normalize_action (some e.action)) e.timestamp e.time_remaining_turns
        e.source_ref) k =
      if relevant k (finish_record n
          (event_record cfg e (normalize_action (some e.action)) ty a b)) then
        opens_state (finish_record n
          (event_record cfg e (normalize_action (some e.action)) ty a b)).action
      else active_has s0 k := by
  rw [active_has_apply_tracker, relevant_event_record, action_finish, action_event_record]
  cases ho : opens_state (normalize_action (some e.action)) <;>
    cases ht : is_terminal_action (normalize_action (some e.action)) <;>
    by_cases hkk : k = ((e.pair_min_id, e.pair_max_id), ty) <;>
    simp [hkk, ho, ht]

theorem trackerInv_process_event (cfg : ReconCfg) (s : ReconState)
    (e : NormEvent) (h : TrackerInv s) :
    TrackerInv (process_event cfg s e) := by
  unfold process_event
  by_cases h0 : (infer_type_if_needed e s.active).1 = ""
  · simp only [h0, if_true]
    exact trackerInv_flags _ _ h
  · simp only [h0, if_false]
    by_cases h1 : (infer_type_if_needed e s.active).1 = "UNKNOWN" <;>
      simp only [h1, if_true, if_false] <;>
      exact trackerInv_emit s.active s.out s.next_event_sequence _ _ _ _ h
        (fun k => hstep_event _ _ _ _ _ _ _ k)

theorem trackerInv_stream_remember (s : ReconState) (item : StreamItem)
    (h : TrackerInv s) : TrackerInv (stream_remember s item) := by
  unfold stream_remember
  rcases item with e | m
  · exact fun k => h k
  · exact h

theorem trackerInv_recon_step (cfg : ReconCfg) (s : ReconState)
    (item : StreamItem) (h : TrackerInv s) :
    TrackerInv (recon_step cfg s item) := by
  unfold recon_step
  have h1 := trackerInv_flush_expired cfg s (some (item_ts item)) h
  have h2 := trackerInv_stream_remember _ item h1
  rcases item with e | m
  · exact trackerInv_process_event cfg _ e h2
  · exact trackerInv_process_marker cfg _ m h2

theorem trackerInv_init : TrackerInv init_state := by
  intro k
  rfl

/-- C1, amended: after replaying any merged event stream, a `TreatyState`
entry for a key exists in the engine's active map if and only if the last
processed state-relevant event for that key (a `signed`, `extended` or
terminal action, including the engine's own inferred cancellations) was an
opening one, i.e. `signed` or `extended`: `extended` (the tracker's
`Refresh`) also creates an entry when the key is absent. -/
theorem active_iff_last_open_action (cfg : ReconCfg) (bot archive : List NormEvent)
    (markers : List ZeroMarker) (k : TreatyKey) :
    active_has (reconcile_core cfg bot archive markers).active k =
      last_open (reconcile_core cfg bot archive markers).out k := by
  have h : TrackerInv (reconcile_core cfg bot archive markers) := by
    unfold reconcile_core
    exact trackerInv_flush_expired cfg _ none
      (foldl_pres TrackerInv _ (fun s x hs => trackerInv_recon_step cfg s x hs) _ _ trackerInv_init)
  exact h k

/-! ## Claim C9: UNKNOWN treaty types are flagged and kept -/
theorem ttype_finish (n : Nat) (r : ReconRecord) :
    (finish_record n r).treaty_type = r.treaty_type := rfl

theorem ttype_event_record (cfg : ReconCfg) (e : NormEvent) (action ty a b : String) :
    (event_record cfg e action ty a b).treaty_type = ty := rfl

/-- C9: a merged item whose treaty type resolves to the literal `UNKNOWN`
(single-open-type inference not applying) is not dropped: the engine appends
the `unknown_treaty_type_event` warning, emits the record under treaty type
`UNKNOWN` with its normalized action, and applies the event to the state
tracker under the key `(pair, UNKNOWN)`; only items whose resolved type is
the empty string are dropped (with a warning), leaving the emitted log and
the tracker untouched. -/
theorem unknown_type_emitted_not_dropped (cfg : ReconCfg) (s : ReconState)
    (e : NormEvent) :
    ((infer_type_if_needed e s.active).1 = "UNKNOWN" →
      (process_event cfg s e).out.length = s.out.length + 1
      ∧ ((process_event cfg s e).out.getLast?).map (fun r => (r.action, r.treaty_type))
          = some (normalize_action (some e.action), "UNKNOWN")
      ∧ (process_event cfg s e).flags
          = s.flags ++ (infer_type_if_needed e s.active).2
              ++ [Flag.mk "warning" "unknown_treaty_type_event"]
      ∧ (process_event cfg s e).active
          = apply_tracker s.active (e.pair_min_id, e.pair_max_id) "UNKNOWN"
              (normalize_action (some e.action)) e.timestamp e.time_remaining_turns
              e.source_ref)
    ∧ ((infer_type_if_needed e s.active).1 = "" →
      (process_event cfg s e).out = s.out
      ∧ (process_event cfg s e).active = s.active
      ∧ (process_event cfg s e).flags
          = s.flags ++ (infer_type_if_needed e s.active).2
              ++ [Flag.mk "warning" "empty_treaty_type_after_inference"]) := by
  constructor
  · intro h
    unfold process_event
    simp only [h]
    refine ⟨?_, ?_, ?_, ?_⟩
    · simp [append_record]
    · simp [append_record, List.getLast?_concat, action_finish, action_event_record,
        ttype_finish, ttype_event_record]
    · simp [append_record]
    · simp [append_record]
  · intro h
    unfold process_event
    simp only [h]
    refine ⟨?_, ?_, ?_⟩ <;> simp

theorem unknown_type_emitted_not_dropped_witness :
    (infer_type_if_needed c9_event init_state.active).1 = "UNKNOWN"
    ∧ (process_event c9_cfg init_state c9_event).out.length
        = init_state.out.length + 1
    ∧ (process_event c9_cfg init_state c9_event).flags
        = init_state.flags ++ (infer_type_if_needed c9_event init_state.active).2
            ++ [Flag.mk "warning" "unknown_treaty_type_event"] := by
  have h := (unknown_type_emitted_not_dropped c9_cfg init_state c9_event).1 (by decide)
  exact ⟨by decide, h.1, h.2.2.1⟩

theorem expiry_record_mode (lookup : GroundingLookup) (mode : String) (bexp bdel : Bool)
    (a b : String) (entry : TreatyKey × TreatyState) (x : Time) :
    expiry_record ⟨lookup, mode, bexp, bdel⟩ a b entry x =
      set_keep mode (expiry_record ⟨lookup, "off", bexp, bdel⟩ a b entry x) := rfl

theorem deletion_record_mode (lookup : GroundingLookup) (mode : String) (bexp bdel : Bool)
    (a b : String) (entry : TreatyKey × TreatyState) (ts : Time) (ref : String) :
    deletion_record ⟨lookup, mode, bexp, bdel⟩ a b entry ts ref =
      set_keep mode (deletion_record ⟨lookup, "off", bexp, bdel⟩ a b entry ts ref) := rfl

theorem event_record_mode (lookup : GroundingLookup) (mode : String) (bexp bdel : Bool)
    (e : NormEvent) (action ty a b : String) :
    event_record ⟨lookup, mode, bexp, bdel⟩ e action ty a b =
      set_keep mode (event_record ⟨lookup, "off", bexp, bdel⟩ e action ty a b) := rfl

theorem finish_set_keep (n : Nat) (m : String) (r : ReconRecord) :
    finish_record n (set_keep m r) = set_keep m (finish_record n r) := rfl

theorem flush_entry_ann (lookup : GroundingLookup) (mode : String) (bexp bdel : Bool)
    (now : Option Time) (s : ReconState) (entry : TreatyKey × TreatyState) :
    flush_entry ⟨lookup, mode, bexp, bdel⟩ now (ann_state mode s) entry =
      ann_state mode (flush_entry ⟨lookup, "off", bexp, bdel⟩ now s entry) := by
  unfold flush_entry
  rcases entry.2.expires_at with _ | x
  · rfl
  · by_cases hdue : expires_due x now
    · simp only [hdue, if_true]
      rw [expiry_record_mode lookup mode bexp bdel]
      simp only [ann_state, append_record, finish_set_keep, List.map_append,
        List.map_cons, List.map_nil]
    · simp only [hdue, if_false]
      rfl

theorem delete_entry_ann (lookup : GroundingLookup) (mode : String) (bexp bdel : Bool)
    (ts : Time) (ref : String) (s : ReconState) (entry : TreatyKey × TreatyState) :
    delete_entry ⟨lookup, mode, bexp, bdel⟩ ts ref (ann_state mode s) entry =
      ann_state mode (delete_entry ⟨lookup, "off", bexp, bdel⟩ ts ref s entry) := by
  unfold delete_entry
  simp only [deletion_record_mode lookup mode bexp bdel, ann_state, append_record,
    finish_set_keep, List.map_append, List.map_cons, List.map_nil]

theorem foldl_ann {χ : Type} (f g : ReconState → χ → ReconState) (m : String)
    (h : ∀ s x, f (ann_state m s) x = ann_state m (g s x)) :
    ∀ (l : List χ) (s : ReconState),
      l.foldl f (ann_state m s) = ann_state m (l.foldl g s)
  | [], _ => rfl
  | x :: l, s => by rw [List.foldl_cons, List.foldl_cons, h, foldl_ann f g m h l]

theorem flush_expired_ann (lookup : GroundingLookup) (mode : String) (bexp bdel : Bool)
    (s : ReconState) (now : Option Time) :
    flush_expired ⟨lookup, mode, bexp, bdel⟩ (ann_state mode s) now =
      ann_state mode (flush_expired ⟨lookup, "off", bexp, bdel⟩ s now) := by
  unfold flush_expired
  by_cases hc : bexp
  · simp only [hc, if_true]
    rw [show (ann_state mode s).active = s.active from rfl]
    exact foldl_ann _ _ mode (fun s x => flush_entry_ann lookup mode bexp bdel now s x)
      s.active s
  · simp [hc]

theorem process_marker_ann (lookup : GroundingLookup) (mode : String) (bexp bdel : Bool)
    (s : ReconState) (m : ZeroMarker) :
    process_marker ⟨lookup, mode, bexp, bdel⟩ (ann_state mode s) m =
      ann_state mode (process_marker ⟨lookup, "off", bexp, bdel⟩ s m) := by
  unfold process_marker
  by_cases hc : bdel
  · simp only [hc, if_true]
    rw [show (ann_state mode s).active = s.active from rfl]
    exact foldl_ann _ _ mode
      (fun s x => delete_entry_ann lookup mode bexp bdel m.timestamp m.source_ref s x)
      _ s
  · simp [hc]

theorem process_event_ann (lookup : GroundingLookup) (mode : String) (bexp bdel : Bool)
    (s : ReconState) (e : NormEvent) :
    process_event ⟨lookup, mode, bexp, bdel⟩ (ann_state mode s) e =
      ann_state mode (process_event ⟨lookup, "off", bexp, bdel⟩ s e) := by
  unfold process_event
  rw [show (ann_state mode s).active = s.active from rfl]
  by_cases h0 : (infer_type_if_needed e s.active).1 = ""
  · simp only [h0, if_true]
    rfl
  · simp only [h0, if_false]
    by_cases h1 : (infer_type_if_needed e s.active).1 = "UNKNOWN" <;>
      simp only [h1, if_true, if_false] <;>
      · rw [event_record_mode lookup mode bexp bdel]
        simp only [ann_state, append_record, finish_set_keep, List.map_append,
          List.map_cons, List.map_nil]

theorem stream_remember_ann (mode : String) (s : ReconState) (item : StreamItem) :
    stream_remember (ann_state mode s) item =
      ann_state mode (stream_remember s item) := by
  unfold stream_remember
  rcases item with e | m
  · rfl
  · rfl

theorem recon_step_ann (lookup : GroundingLookup) (mode : String) (bexp bdel : Bool)
    (s : ReconState) (item : StreamItem) :
    recon_step ⟨lookup, mode, bexp, bdel⟩ (ann_state mode s) item =
      ann_state mode (recon_step ⟨lookup, "off", bexp, bdel⟩ s item) := by
  simp only [recon_step]
  rw [flush_expired_ann, stream_remember_ann]
  rcases item with e | m
  · exact process_event_ann ..
  · exact process_marker_ann ..

theorem reconcile_core_ann (lookup : GroundingLookup) (mode : String) (bexp bdel : Bool)
    (bot archive : List NormEvent) (markers : List ZeroMarker) :
    reconcile_core ⟨lookup, mode, bexp, bdel⟩ bot archive markers =
      ann_state mode (reconcile_core ⟨lookup, "off", bexp, bdel⟩ bot archive markers) := by
  have h1 : (merged_stream ⟨lookup, "off", bexp, bdel⟩ bot archive markers).foldl
      (recon_step ⟨lookup, mode, bexp, bdel⟩) init_state
      = ann_state mode ((merged_stream ⟨lookup, "off", bexp, bdel⟩ bot archive markers).foldl
          (recon_step ⟨lookup, "off", bexp, bdel⟩) init_state) :=
    foldl_ann _ _ mode (fun s x => recon_step_ann lookup mode bexp bdel s x) _ init_state
  show flush_expired ⟨lookup, mode, bexp, bdel⟩
      ((merged_stream ⟨lookup, mode, bexp, bdel⟩ bot archive markers).foldl
        (recon_step ⟨lookup, mode, bexp, bdel⟩) init_state) none
    = ann_state mode (flush_expired ⟨lookup, "off", bexp, bdel⟩
        ((merged_stream ⟨lookup, "off", bexp, bdel⟩ bot archive markers).foldl
          (recon_step ⟨lookup, "off", bexp, bdel⟩) init_state) none)
  rw [show merged_stream ⟨lookup, mode, bexp, bdel⟩ bot archive markers =
    merged_stream ⟨lookup, "off", bexp, bdel⟩ bot archive markers from rfl]
  rw [h1]
  exact flush_expired_ann lookup mode bexp bdel _ none

theorem out_key_set_keep (m : String) (r : ReconRecord) :
    out_key (set_keep m r) = out_key r := rfl

theorem orderedInsert_set_keep (m : String) (a : ReconRecord) (l : List ReconRecord) :
    List.orderedInsert out_le (set_keep m a) (l.map (set_keep m)) =
      (List.orderedInsert out_le a l).map (set_keep m) := by
  induction l with
  | nil => rfl
  | cons b t ih =>
    simp only [List.map_cons, List.orderedInsert]
    by_cases h : out_le a b
    · rw [if_pos h, if_pos (show out_le (set_keep m a) (set_keep m b) from h)]
      rfl
    · rw [if_neg h, if_neg (show ¬ out_le (set_keep m a) (set_keep m b) from h)]
      simp only [List.map_cons, ih]

theorem insertionSort_set_keep (m : String) (l : List ReconRecord) :
    List.insertionSort out_le (l.map (set_keep m)) =
      (List.insertionSort out_le l).map (set_keep m) := by
  induction l with
  | nil => rfl
  | cons a t ih =>
    simp only [List.map_cons, List.insertionSort]
    rw [ih, orderedInsert_set_keep]

/-- C10: grounding (`semi`/`strict`) removes records only after the whole
replay: the run with any grounding mode produces the same flags, the same
final tracker state, and the same records as the `off` run up to the
`grounded_keep` annotation (so state evolution and every inferred record
are mode-independent); every record's `grounded_keep` is exactly the
configured policy applied to its stored grounding bits, and `main`'s
grounding filter only drops already-emitted records whose `grounded_keep`
is false. -/
theorem grounding_filter_post_replay (lookup : GroundingLookup) (mode : String)
    (bexp bdel : Bool) (bot archive : List NormEvent) (markers : List ZeroMarker) :
    (reconcile_events ⟨lookup, mode, bexp, bdel⟩ bot archive markers).2 =
      (reconcile_events ⟨lookup, "off", bexp, bdel⟩ bot archive markers).2
    ∧ (reconcile_events ⟨lookup, mode, bexp, bdel⟩ bot archive markers).1 =
      ((reconcile_events ⟨lookup, "off", bexp, bdel⟩ bot archive markers).1).map
        (set_keep mode)
    ∧ (reconcile_core ⟨lookup, mode, bexp, bdel⟩ bot archive markers).active =
      (reconcile_core ⟨lookup, "off", bexp, bdel⟩ bot archive markers).active
    ∧ ((reconcile_events ⟨lookup, mode, bexp, bdel⟩ bot archive markers).1).all
        (fun r => r.grounded_keep ==
          should_keep_by_top50 mode r.grounded_from r.grounded_to)
    ∧ grounding_filter mode
        (reconcile_events ⟨lookup, mode, bexp, bdel⟩ bot archive markers).1 =
      ((reconcile_events ⟨lookup, mode, bexp, bdel⟩ bot archive markers).1).filter
        (fun r => r.grounded_keep) := by
  have hcore := reconcile_core_ann lookup mode bexp bdel bot archive markers
  have hout : (reconcile_events ⟨lookup, mode, bexp, bdel⟩ bot archive markers).1 =
      ((reconcile_events ⟨lookup, "off", bexp, bdel⟩ bot archive markers).1).map
        (set_keep mode) := by
    show List.insertionSort out_le
      (reconcile_core ⟨lookup, mode, bexp, bdel⟩ bot archive markers).out = _
    rw [hcore]
    rw [show (ann_state mode (reconcile_core ⟨lookup, "off", bexp, bdel⟩
      bot archive markers)).out =
      ((reconcile_core ⟨lookup, "off", bexp, bdel⟩ bot archive markers).out).map
        (set_keep mode) from rfl]
    exact insertionSort_set_keep mode _
  have hall : ((reconcile_events ⟨lookup, mode, bexp, bdel⟩ bot archive markers).1).all
      (fun r => r.grounded_keep ==
        should_keep_by_top50 mode r.grounded_from r.grounded_to) = true := by
    rw [hout]
    rw [List.all_map]
    apply List.all_eq_true.mpr
    intro r _
    simp [set_keep]
  refine ⟨?_, hout, ?_, hall, ?_⟩
  · show (reconcile_core ⟨lookup, mode, bexp, bdel⟩ bot archive markers).flags =
      (reconcile_core ⟨lookup, "off", bexp, bdel⟩ bot archive markers).flags
    rw [hcore]
    rfl
  · show (reconcile_core ⟨lookup, mode, bexp, bdel⟩ bot archive markers).active =
      (reconcile_core ⟨lookup, "off", bexp, bdel⟩ bot archive markers).active
    rw [hcore]
    rfl
  unfold grounding_filter
  by_cases hm : mode = "off"
  · subst hm
    simp only [ne_eq, not_true_eq_false, if_false]
    refine (List.filter_eq_self.mpr ?_).symm
    intro r hr
    have := List.all_eq_true.mp hall r hr
    simpa using this
  · simp [hm]

/-- C3, counterexample: with churn collapsing and noise filtering both
enabled, `main`'s post passes do not equal
`ChurnCollapse(NoiseFilter(reconciled))`: on five alternating same-instant
bot records, `main` collapses the churn cluster first and keeps the final
`signed`, whereas filtering noise first deletes all five records and
leaves nothing for the churn collapser. -/
theorem post_pass_order_counterexample :
    main_post_passes c3_cfg c3_events ≠
      (apply_churn_collapse (apply_noise_filter c3_events 24 false).1 10 2).1 := by
  decide

/-- C3, amended: `main` first filters by grounding keep, then applies the
churn collapser, then the noise filter; with grounding off and both passes
enabled, the persisted log (the frame-index builder's input) is
`NoiseFilter(ChurnCollapse(reconciled))`. -/
theorem post_passes_churn_then_noise (cfg : PostCfg) (reconciled : List ReconRecord)
    (h1 : cfg.top50_mode = "off") (h2 : cfg.collapse_churn = true)
    (h3 : cfg.filter_noise = true) :
    main_post_passes cfg reconciled =
      (apply_noise_filter
        (apply_churn_collapse reconciled cfg.churn_window_minutes cfg.churn_min_events).1
        cfg.noise_window_hours cfg.keep_noise).1 := by
  unfold main_post_passes
  simp [h1, h2, h3]

theorem post_passes_churn_then_noise_witness :
    c3_cfg.top50_mode = "off" ∧ c3_cfg.collapse_churn = true
    ∧ c3_cfg.filter_noise = true
    ∧ main_post_passes c3_cfg c3_events =
        (apply_noise_filter (apply_churn_collapse c3_events 10 2).1 24 false).1 :=
  ⟨rfl, rfl, rfl, post_passes_churn_then_noise c3_cfg c3_events rfl rfl rfl⟩

theorem count_action_split (l : List ReconRecord)
    (hall : ∀ r ∈ l, r.action = "signed" ∨ r.action = "cancelled") :
    count_action "signed" l + count_action "cancelled" l = l.length := by
  induction l with
  | nil => rfl
  | cons a t ih =>
    have ha := hall a (List.mem_cons_self a t)
    have ht := ih (fun r hr => hall r (List.mem_cons_of_mem a hr))
    unfold count_action at ht ⊢
    rcases ha with h | h <;> simp [List.filter_cons, h] <;> omega

/-- C8, counterexample: the scenario as stated is arithmetically
unsatisfiable — no log of 30 records, each `signed` or `cancelled`, can
have net signed − cancelled equal to 1, by parity. -/
theorem churn_scenario_parity_counterexample :
    ¬ ∃ l : List ReconRecord, l.length = 30 ∧
      (∀ r ∈ l, r.action = "signed" ∨ r.action = "cancelled") ∧
      count_action "signed" l = count_action "cancelled" l + 1 := by
  rintro ⟨l, hlen, hall, hnet⟩
  have hsum := count_action_split l hall
  omega

/-- C8, amended: with the default thresholds (10-minute window, minimum
cluster size 20), a burst of 29 bot `signed`/`cancelled` records on one
pair and type within 5 minutes, at 6 distinct timestamps with one
timestamp occurring 10 times and net signed − cancelled = 1, collapses to
exactly the last `signed` record: the other 28 are removed and exactly one
`churn_cluster_collapsed` info flag is appended.  (The spec's 30-record
variant with net 1 is impossible by parity.) -/
theorem churn_collapse_29_burst :
    apply_churn_collapse c8_events 10 20 =
      ([c8_rec 28], [Flag.mk "info" "churn_cluster_collapsed"])
    ∧ count_action "signed" c8_events = 15
    ∧ count_action "cancelled" c8_events = 14
    ∧ (uniq_list (c8_events.map (fun r => r.timestamp))).length = 6
    ∧ (c8_events.map (fun r => r.timestamp)).count 0 = 10
    ∧ (c8_rec 28).action = "signed" := by
  decide

/-! ## Claim C7: the noise filter -/
theorem range_map_getD {β : Type} [Inhabited β] (n : Nat) (f : Nat → β) (i : Nat)
    (h : i < n) : ((List.range n).map f).getD i default = f i := by
  rw [List.getD_eq_getElem?_getD, List.getElem?_map, List.getElem?_range h]
  rfl

theorem mem_group_idxs (events : List ReconRecord) (k : TreatyKey) (i : Nat) :
    i ∈ group_idxs events k ↔
      (i < events.length ∧ rec_key (events.getD i default) = k) := by
  unfold group_idxs
  simp [List.mem_filter, List.mem_range]

theorem noise_marked_of_adj (events : List ReconRecord) (wh : Int) (k : TreatyKey)
    (i j : Nat) (hmem : (i, j) ∈ adjacent_pairs (group_idxs events k))
    (hc : noise_cond events wh i j = true) :
    noise_marked events wh i = true ∧ noise_marked events wh j = true := by
  have hij := List.of_mem_zip hmem
  have hi : i ∈ group_idxs events k := hij.1
  have hj : j ∈ group_idxs events k := List.mem_of_mem_tail hij.2
  have hki : rec_key (events.getD i default) = k := ((mem_group_idxs events k i).mp hi).2
  have hkj : rec_key (events.getD j default) = k := ((mem_group_idxs events k j).mp hj).2
  constructor
  · unfold noise_marked
    rw [hki]
    exact List.any_eq_true.mpr ⟨(i, j), hmem, by simp [hc]⟩
  · unfold noise_marked
    rw [hkj]
    exact List.any_eq_true.mpr ⟨(i, j), hmem, by simp [hc]⟩

theorem noise_annotate_getD (events : List ReconRecord) (wh : Int) (i : Nat)
    (h : i < events.length) :
    (noise_annotate events wh).getD i default =
      (if noise_marked events wh i then mark_record wh (events.getD i default)
       else events.getD i default) := by
  unfold noise_annotate
  rw [range_map_getD _ _ _ h]

theorem map_filter_eq_filterMap {α β : Type} (f : α → β) (p : β → Bool)
    (g : α → Option β) :
    ∀ l : List α, (∀ a ∈ l, (if p (f a) then some (f a) else none) = g a) →
      ((l.map f).filter p) = l.filterMap g
  | [], _ => rfl
  | a :: l, h => by
    have ha := h a (List.mem_cons_self a l)
    have hl := map_filter_eq_filterMap f p g l
      (fun x hx => h x (List.mem_cons_of_mem a hx))
    simp only [List.map_cons, List.filter_cons, List.filterMap_cons, ← ha]
    by_cases hp : p (f a)
    · simp [hp, hl]
    · simp [hp, hl]

/-- C7: in the ordered reconciled log, whenever two positionally adjacent
events of a `(pair, treaty_type)` group have opposite `signed`/`cancelled`
actions, are both bot-sourced, and lie within `[0, windowHours]` of each
other, the noise filter marks both `noise_filtered = true` with reason
`opposite_action_within_<N>h`; and without keep-noise, the output consists
of exactly the unmarked events, in their original order. -/
theorem noise_filter_marks_and_removes (events : List ReconRecord)
    (window_hours : Int)
    (hclean : ∀ r ∈ events, r.noise_filtered = false) :
    (∀ k i j, (i, j) ∈ adjacent_pairs (group_idxs events k) →
      noise_cond events window_hours i j = true →
      noise_marked events window_hours i = true ∧
      noise_marked events window_hours j = true ∧
      ((noise_annotate events window_hours).getD i default).noise_filtered = true ∧
      ((noise_annotate events window_hours).getD i default).noise_reason
        = some (noise_reason_str window_hours) ∧
      ((noise_annotate events window_hours).getD j default).noise_filtered = true ∧
      ((noise_annotate events window_hours).getD j default).noise_reason
        = some (noise_reason_str window_hours))
    ∧ (apply_noise_filter events window_hours false).1 =
        (List.range events.length).filterMap (fun i =>
          if noise_marked events window_hours i then none
          else some (events.getD i default)) := by
  constructor
  · intro k i j hmem hc
    have hmarks := noise_marked_of_adj events window_hours k i j hmem hc
    have hij := List.of_mem_zip hmem
    have hi : i < events.length :=
      ((mem_group_idxs events k i).mp hij.1).1
    have hj : j < events.length :=
      ((mem_group_idxs events k j).mp (List.mem_of_mem_tail hij.2)).1
    refine ⟨hmarks.1, hmarks.2, ?_, ?_, ?_, ?_⟩ <;>
      rw [noise_annotate_getD _ _ _ (by first | exact hi | exact hj),
        if_pos (by first | exact hmarks.1 | exact hmarks.2)] <;>
      rfl
  · show (noise_annotate events window_hours).filter (fun ev => !ev.noise_filtered) = _
    unfold noise_annotate
    apply map_filter_eq_filterMap
    intro i hi
    have hlt : i < events.length := List.mem_range.mp hi
    by_cases hm : noise_marked events window_hours i
    · simp [hm, mark_record]
    · have hmem : events.getD i default ∈ events := by
        rw [List.getD_eq_getElem _ _ hlt]
        exact List.getElem_mem hlt
      have hcl := hclean _ hmem
      rw [List.getD_eq_getElem?_getD] at hcl
      simp [hm, hcl]

theorem noise_filter_marks_and_removes_witness :
    (∀ r ∈ c7_events, r.noise_filtered = false)
    ∧ (apply_noise_filter c7_events 24 false).1 = [] := by
  refine ⟨by decide, ?_⟩
  rw [(noise_filter_marks_and_removes c7_events 24 (by decide)).2]
  decide

theorem dict_get_none_iff {α : Type} [DecidableEq α] (m : List (α × ℕ)) (k : α) :
    dict_get m k = none ↔ (m.any (fun p => decide (p.1 = k))) = false := by
  unfold dict_get
  induction m with
  | nil => simp
  | cons a l ih =>
    by_cases hk : a.1 = k <;> simp [List.find?_cons, hk, ih]

theorem dict_get_some_any {α : Type} [DecidableEq α] (m : List (α × ℕ)) (k : α)
    (v : ℕ) (h : dict_get m k = some v) :
    (m.any (fun p => decide (p.1 = k))) = true := by
  cases hca : m.any (fun p => decide (p.1 = k)) with
  | true => rfl
  | false =>
    rw [(dict_get_none_iff m k).mpr hca] at h
    cases h

theorem dict_get_cons {α : Type} [DecidableEq α] (a : α × ℕ) (l : List (α × ℕ))
    (k : α) :
    dict_get (a :: l) k = if a.1 = k then some a.2 else dict_get l k := by
  unfold dict_get
  rw [List.find?_cons]
  by_cases hk : a.1 = k
  · simp [hk]
  · simp [hk]

theorem dict_get_some_mem {α : Type} [DecidableEq α] (m : List (α × ℕ)) (k : α)
    (v : ℕ) (h : dict_get m k = some v) : v ∈ val_set m := by
  unfold val_set
  induction m with
  | nil => simp [dict_get] at h
  | cons a l ih =>
    rw [dict_get_cons] at h
    by_cases hk : a.1 = k
    · rw [if_pos hk] at h
      have hv := Option.some_inj.mp h
      simp [hv]
    · rw [if_neg hk] at h
      simp [ih h]

theorem dict_del_of_get_none {α : Type} [DecidableEq α] (m : List (α × ℕ)) (k : α)
    (h : dict_get m k = none) : dict_del m k = m := by
  have hany := (dict_get_none_iff m k).mp h
  unfold dict_del
  apply List.filter_eq_self.mpr
  intro p hp
  have hne : ¬ (p.1 = k) := by
    intro hc
    have : m.any (fun p => decide (p.1 = k)) = true :=
      List.any_eq_true.mpr ⟨p, hp, by simp [hc]⟩
    simp [this] at hany
  simp [hne]

theorem val_set_dict_set_none {α : Type} [DecidableEq α] (m : List (α × ℕ)) (k : α)
    (v : ℕ) (h : dict_get m k = none) :
    val_set (dict_set m k v) = insert v (val_set m) := by
  have hany := (dict_get_none_iff m k).mp h
  unfold dict_set
  rw [hany]
  simp only [Bool.false_eq_true, if_false]
  unfold val_set
  rw [List.map_append, List.toFinset_append]
  ext x
  simp [or_comm]

theorem map_replace_id {α : Type} [DecidableEq α] (l : List (α × ℕ)) (k : α) (w : ℕ)
    (h : ∀ p ∈ l, p.1 ≠ k) :
    l.map (fun p => if p.1 = k then (k, w) else p) = l := by
  induction l with
  | nil => rfl
  | cons a t ih =>
    rw [List.map_cons, if_neg (h a (List.mem_cons_self a t)),
      ih (fun p hp => h p (List.mem_cons_of_mem a hp))]

theorem dict_set_cons_hit {α : Type} [DecidableEq α] (a : α × ℕ) (l : List (α × ℕ))
    (k : α) (w : ℕ) (hk : a.1 = k) (hkn : ((a :: l).map Prod.fst).Nodup) :
    dict_set (a :: l) k w = (k, w) :: l := by
  unfold dict_set
  have hhead : (a :: l).any (fun p => decide (p.1 = k)) = true := by
    simp [List.any_cons, hk]
  rw [hhead]
  simp only [if_true, List.map_cons, if_pos hk]
  congr 1
  apply map_replace_id
  intro p hp hc
  simp only [List.map_cons, List.nodup_cons] at hkn
  exact hkn.1 (by rw [hk, ← hc]; exact List.mem_map_of_mem Prod.fst hp)

theorem dict_set_cons_miss {α : Type} [DecidableEq α] (a : α × ℕ) (l : List (α × ℕ))
    (k : α) (w : ℕ) (hk : ¬ a.1 = k) (hany : l.any (fun p => decide (p.1 = k)) = true) :
    dict_set (a :: l) k w = a :: dict_set l k w := by
  unfold dict_set
  have hc : (a :: l).any (fun p => decide (p.1 = k)) = true := by
    simp [List.any_cons, hany]
  rw [hc, hany]
  simp [if_neg hk]

theorem val_set_cons (a : TreatyKey × ℕ) (l : List (TreatyKey × ℕ)) :
    val_set (a :: l) = insert a.2 (val_set l) := by
  unfold val_set
  simp

theorem val_set_dict_set_some {α : Type} [DecidableEq α] (m : List (α × ℕ)) (k : α)
    (v w : ℕ) (h : dict_get m k = some v)
    (hkn : (m.map Prod.fst).Nodup) (hvn : (m.map (fun p => p.2)).Nodup) :
    val_set (dict_set m k w) = insert w ((val_set m).erase v) := by
  induction m with
  | nil => simp [dict_get] at h
  | cons a l ih =>
    have hget := h
    rw [dict_get_cons] at hget
    have hkn0 : ((a :: l).map Prod.fst).Nodup := hkn
    simp only [List.map_cons, List.nodup_cons] at hkn hvn
    by_cases hk : a.1 = k
    · rw [if_pos hk] at hget
      have hv := Option.some_inj.mp hget
      rw [dict_set_cons_hit a l k w hk hkn0]
      simp only [val_set, List.map_cons, List.toFinset_cons]
      rw [← hv, Finset.erase_insert (by simpa [List.mem_toFinset] using hvn.1)]
    · rw [if_neg hk] at hget
      have hvl : v ∈ val_set l := dict_get_some_mem l k v hget
      have hva : v ≠ a.2 := by
        intro hc
        exact hvn.1 (by simpa [val_set, List.mem_toFinset, ← hc] using hvl)
      rw [dict_set_cons_miss a l k w hk (dict_get_some_any l k v hget)]
      simp only [val_set, List.map_cons, List.toFinset_cons]
      have := ih hget hkn.2 hvn.2
      simp only [val_set] at this
      rw [this, Finset.erase_insert_of_ne (fun hc => hva hc.symm)]
      ext x
      simp only [Finset.mem_insert]
      tauto

theorem dict_del_cons_hit {α : Type} [DecidableEq α] (a : α × ℕ) (l : List (α × ℕ))
    (k : α) (hk : a.1 = k) (hkn : ((a :: l).map Prod.fst).Nodup) :
    dict_del (a :: l) k = l := by
  unfold dict_del
  rw [List.filter_cons_of_neg (by simp [hk])]
  apply List.filter_eq_self.mpr
  intro p hp
  simp only [List.map_cons, List.nodup_cons] at hkn
  have : p.1 ≠ k := by
    intro hc
    exact hkn.1 (by rw [hk, ← hc]; exact List.mem_map_of_mem Prod.fst hp)
  simp [this]

theorem val_set_dict_del_some {α : Type} [DecidableEq α] (m : List (α × ℕ)) (k : α)
    (v : ℕ) (h : dict_get m k = some v)
    (hkn : (m.map Prod.fst).Nodup) (hvn : (m.map (fun p => p.2)).Nodup) :
    val_set (dict_del m k) = (val_set m).erase v := by
  induction m with
  | nil => simp [dict_get] at h
  | cons a l ih =>
    have hget := h
    rw [dict_get_cons] at hget
    have hkn0 : ((a :: l).map Prod.fst).Nodup := hkn
    simp only [List.map_cons, List.nodup_cons] at hkn hvn
    by_cases hk : a.1 = k
    · rw [if_pos hk] at hget
      have hv := Option.some_inj.mp hget
      rw [dict_del_cons_hit a l k hk hkn0]
      simp only [val_set, List.map_cons, List.toFinset_cons]
      rw [← hv, Finset.erase_insert (by simpa [List.mem_toFinset] using hvn.1)]
    · rw [if_neg hk] at hget
      have hvl : v ∈ val_set l := dict_get_some_mem l k v hget
      have hva : v ≠ a.2 := by
        intro hc
        exact hvn.1 (by simpa [val_set, List.mem_toFinset, ← hc] using hvl)
      have hdel : dict_del (a :: l) k = a :: dict_del l k := by
        unfold dict_del
        rw [List.filter_cons_of_pos (by simp [hk])]
      rw [hdel]
      simp only [val_set, List.map_cons, List.toFinset_cons]
      have := ih hget hkn.2 hvn.2
      simp only [val_set] at this
      rw [this, Finset.erase_insert_of_ne (fun hc => hva hc.symm)]

theorem fi_step_eq (s : FIState) (ie : Nat × ReconRecord) :
    fi_step s ie = fi_act (fi_day s (day_of ie.2.timestamp) ie.1) ie.1 ie.2 := rfl

theorem cum_fin_append (l : List (Finset ℕ × Finset ℕ)) (d : Finset ℕ × Finset ℕ) :
    cum_fin (l ++ [d]) = (cum_fin l ∪ d.1) \ d.2 := by
  unfold cum_fin
  rw [List.foldl_append]
  rfl

theorem mem_cum_fin_aux (l : List (Finset ℕ × Finset ℕ)) (x : ℕ) :
    ∀ S : Finset ℕ, x ∈ l.foldl (fun S d => (S ∪ d.1) \ d.2) S →
      x ∈ S ∨ ∃ d ∈ l, x ∈ d.1 := by
  induction l with
  | nil => intro S h; exact Or.inl h
  | cons a t ih =>
    intro S h
    rcases ih _ h with h1 | h1
    · rw [Finset.mem_sdiff, Finset.mem_union] at h1
      rcases h1.1 with h2 | h2
      · exact Or.inl h2
      · exact Or.inr ⟨a, List.mem_cons_self a t, h2⟩
    · obtain ⟨d, hd, hx⟩ := h1
      exact Or.inr ⟨d, List.mem_cons_of_mem a hd, hx⟩

theorem mem_cum_fin (l : List (Finset ℕ × Finset ℕ)) (x : ℕ)
    (h : x ∈ cum_fin l) : ∃ d ∈ l, x ∈ d.1 := by
  rcases mem_cum_fin_aux l x ∅ h with h1 | h1
  · simp at h1
  · exact h1

theorem cnt_flush (sel : Finset ℕ × Finset ℕ → Finset ℕ)
    (deltas : List (Finset ℕ × Finset ℕ)) (d : Finset ℕ × Finset ℕ) (x : ℕ) :
    cnt sel (deltas ++ [d]) ∅ x = cnt sel deltas (sel d) x := by
  unfold cnt
  rw [List.countP_append]
  simp [List.countP_cons]

theorem cnt_insert_ne (sel : Finset ℕ × Finset ℕ → Finset ℕ)
    (deltas : List (Finset ℕ × Finset ℕ)) (cur : Finset ℕ) (L x : ℕ)
    (hx : x ≠ L) : cnt sel deltas (insert L cur) x = cnt sel deltas cur x := by
  unfold cnt
  simp [Finset.mem_insert, hx]

theorem cnt_erase_ne (sel : Finset ℕ × Finset ℕ → Finset ℕ)
    (deltas : List (Finset ℕ × Finset ℕ)) (cur : Finset ℕ) (p x : ℕ)
    (hx : x ≠ p) : cnt sel deltas (cur.erase p) x = cnt sel deltas cur x := by
  unfold cnt
  simp [Finset.mem_erase, hx]

theorem cnt_insert_self (sel : Finset ℕ × Finset ℕ → Finset ℕ)
    (deltas : List (Finset ℕ × Finset ℕ)) (cur : Finset ℕ) (L : ℕ)
    (h : cnt sel deltas cur L = 0) : cnt sel deltas (insert L cur) L = 1 := by
  unfold cnt at h ⊢
  simp only [Finset.mem_insert_self, if_true]
  split_ifs at h with h1
  all_goals omega

theorem cnt_erase_self (sel : Finset ℕ × Finset ℕ → Finset ℕ)
    (deltas : List (Finset ℕ × Finset ℕ)) (cur : Finset ℕ) (p : ℕ) :
    cnt sel deltas (cur.erase p) p = deltas.countP (fun d => decide (p ∈ sel d)) := by
  unfold cnt
  simp

theorem cnt_pos_of_mem (sel : Finset ℕ × Finset ℕ → Finset ℕ)
    (deltas : List (Finset ℕ × Finset ℕ)) (cur : Finset ℕ) (x : ℕ)
    (h : x ∈ cur) : 1 ≤ cnt sel deltas cur x := by
  unfold cnt
  simp [h]

theorem countP_le_cnt (sel : Finset ℕ × Finset ℕ → Finset ℕ)
    (deltas : List (Finset ℕ × Finset ℕ)) (cur : Finset ℕ) (x : ℕ) :
    deltas.countP (fun d => decide (x ∈ sel d)) ≤ cnt sel deltas cur x := by
  unfold cnt
  omega

theorem cnt_notmem (sel : Finset ℕ × Finset ℕ → Finset ℕ)
    (deltas : List (Finset ℕ × Finset ℕ)) (cur : Finset ℕ) (x : ℕ)
    (h : x ∉ cur) : cnt sel deltas cur x = deltas.countP (fun d => decide (x ∈ sel d)) := by
  unfold cnt
  simp [h]

theorem notmem_cum_of_cnt (deltas : List (Finset ℕ × Finset ℕ)) (cur : Finset ℕ)
    (x : ℕ) (hmem : x ∈ cur) (hle : cnt (fun d => d.1) deltas cur x ≤ 1) :
    x ∉ cum_fin deltas := by
  intro hc
  obtain ⟨d, hd, hx⟩ := mem_cum_fin deltas x hc
  have h1 : 0 < deltas.countP (fun d => decide (x ∈ d.1)) :=
    List.countP_pos_iff.mpr ⟨d, hd, by simpa using hx⟩
  unfold cnt at hle
  rw [if_pos hmem] at hle
  simp only [] at hle
  omega

theorem fi_open_take_append (P : List ReconRecord) (e : ReconRecord) (o : Nat)
    (h : o ≤ P.length) : fi_open ((P ++ [e]).take o) = fi_open (P.take o) := by
  rw [List.take_append_of_le_length h]

theorem fi_open_eq_val_set (P : List ReconRecord) (s : FIState)
    (h : (s.active, s.edge_dict.length) = P.foldl open_edges_step ([], 0)) :
    fi_open P = val_set s.active := by
  unfold fi_open val_set
  rw [← h]

theorem addC_eq (deltas : List (Finset ℕ × Finset ℕ)) (cur : Finset ℕ) (x : ℕ) :
    addC deltas cur x = cnt (fun d => d.1) deltas cur x := rfl

theorem remC_eq (deltas : List (Finset ℕ × Finset ℕ)) (cur : Finset ℕ) (x : ℕ) :
    remC deltas cur x = cnt (fun d => d.2) deltas cur x := rfl

theorem mem_val_set_iff {α : Type} [DecidableEq α] (m : List (α × ℕ)) (x : ℕ) :
    x ∈ val_set m ↔ x ∈ m.map (fun p => p.2) := by
  simp [val_set]

theorem keys_dict_set_hit {α : Type} [DecidableEq α] (m : List (α × ℕ)) (k : α)
    (w : ℕ) (h : m.any (fun p => decide (p.1 = k)) = true) :
    (dict_set m k w).map Prod.fst = m.map Prod.fst := by
  unfold dict_set
  rw [h]
  simp only [if_true, List.map_map]
  apply List.map_congr_left
  intro p hp
  by_cases hk : p.1 = k
  · simp [hk]
  · simp [hk]

theorem keys_dict_set_miss {α : Type} [DecidableEq α] (m : List (α × ℕ)) (k : α)
    (w : ℕ) (h : m.any (fun p => decide (p.1 = k)) = false) :
    (dict_set m k w).map Prod.fst = m.map Prod.fst ++ [k] := by
  unfold dict_set
  rw [h]
  simp

theorem not_key_of_any_false {α : Type} [DecidableEq α] (m : List (α × ℕ)) (k : α)
    (h : m.any (fun p => decide (p.1 = k)) = false) : k ∉ m.map Prod.fst := by
  intro hc
  obtain ⟨p, hp, hpk⟩ := List.mem_map.mp hc
  have h2 : m.any (fun p => decide (p.1 = k)) = true :=
    List.any_eq_true.mpr ⟨p, hp, by simp [hpk]⟩
  rw [h] at h2
  exact Bool.false_ne_true h2

theorem keys_nodup_dict_set {α : Type} [DecidableEq α] (m : List (α × ℕ)) (k : α)
    (w : ℕ) (h : (m.map Prod.fst).Nodup) : ((dict_set m k w).map Prod.fst).Nodup := by
  by_cases ha : m.any (fun p => decide (p.1 = k)) = true
  · rw [keys_dict_set_hit m k w ha]
    exact h
  · have ha2 : m.any (fun p => decide (p.1 = k)) = false := Bool.eq_false_iff.mpr ha
    rw [keys_dict_set_miss m k w ha2]
    have hk := not_key_of_any_false m k ha2
    refine List.Nodup.append h (List.nodup_singleton k) ?_
    intro x hx hx2
    rw [List.mem_singleton] at hx2
    subst hx2
    exact hk hx

theorem val_mem_dict_set {α : Type} [DecidableEq α] (m : List (α × ℕ)) (k : α)
    (w x : ℕ) (h : x ∈ (dict_set m k w).map (fun p => p.2)) :
    x = w ∨ x ∈ m.map (fun p => p.2) := by
  unfold dict_set at h
  by_cases ha : m.any (fun p => decide (p.1 = k)) = true
  · rw [ha] at h
    simp only [if_true, List.map_map] at h
    obtain ⟨p, hp, hpx⟩ := List.mem_map.mp h
    by_cases hk : p.1 = k
    · simp only [Function.comp_apply, hk, if_true] at hpx
      exact Or.inl hpx.symm
    · simp only [Function.comp_apply, hk, if_false] at hpx
      exact Or.inr (hpx ▸ List.mem_map_of_mem (fun p => p.2) hp)
  · have ha2 : m.any (fun p => decide (p.1 = k)) = false := Bool.eq_false_iff.mpr ha
    rw [ha2] at h
    simp only [Bool.false_eq_true, if_false, List.map_append, List.mem_append] at h
    rcases h with h | h
    · exact Or.inr h
    · simp at h
      exact Or.inl h

theorem vals_nodup_dict_set {α : Type} [DecidableEq α] (m : List (α × ℕ)) (k : α)
    (w : ℕ) (hkn : (m.map Prod.fst).Nodup) (hvn : (m.map (fun p => p.2)).Nodup)
    (hw : w ∉ m.map (fun p => p.2)) :
    ((dict_set m k w).map (fun p => p.2)).Nodup := by
  induction m with
  | nil =>
    unfold dict_set
    simp
  | cons a l ih =>
    have hkn2 := hkn
    have hvn2 := hvn
    simp only [List.map_cons, List.nodup_cons] at hkn2 hvn2
    have hwl : w ∉ l.map (fun p => p.2) := by
      intro hc
      exact hw (by simp [hc])
    by_cases hk : a.1 = k
    · rw [dict_set_cons_hit a l k w hk hkn]
      simp only [List.map_cons, List.nodup_cons]
      exact ⟨hwl, hvn2.2⟩
    · by_cases hal : l.any (fun p => decide (p.1 = k)) = true
      · rw [dict_set_cons_miss a l k w hk hal]
        simp only [List.map_cons, List.nodup_cons]
        constructor
        · intro hc
          rcases val_mem_dict_set l k w a.2 hc with h1 | h1
          · exact hw (by simp [h1])
          · exact hvn2.1 h1
        · exact ih hkn2.2 hvn2.2 hwl
      · have hfull : (a :: l).any (fun p => decide (p.1 = k)) = false := by
          simp only [List.any_cons, Bool.or_eq_false_iff]
          exact ⟨by simp [hk], Bool.eq_false_iff.mpr hal⟩
        unfold dict_set
        rw [hfull]
        simp only [Bool.false_eq_true, if_false, List.map_append]
        refine List.Nodup.append hvn (List.nodup_singleton w) ?_
        intro x hx hx2
        simp only [List.map_cons, List.map_nil, List.mem_singleton] at hx2
        subst hx2
        exact hw hx

theorem map_dict_del_nodup {α β γ : Type} [DecidableEq α] (m : List (α × β)) (k : α)
    (f : α × β → γ) (h : (m.map f).Nodup) : ((dict_del m k).map f).Nodup :=
  h.sublist ((List.filter_sublist m).map f)

theorem getD_append_left (l l2 : List Nat) (n d : Nat) (h : n < l.length) :
    (l ++ l2).getD n d = l.getD n d := by
  rw [List.getD_eq_getElem?_getD, List.getD_eq_getElem?_getD, List.getElem?_append,
    if_pos h]

theorem getD_concat_self (l : List Nat) (a d : Nat) :
    (l ++ [a]).getD l.length d = a := by
  rw [List.getD_eq_getElem?_getD, List.getElem?_concat_length]
  rfl

/-- The day-rollover step preserves the invariant: no event is consumed,
and a flush snapshots the current day at offset `P.length`. -/
theorem FIInv_fi_day (P : List ReconRecord) (s : FIState) (day : Int)
    (h : FIInv P s) : FIInv P (fi_day s day P.length) := by
  obtain ⟨ha, h1, h2, ho, hd, hc, hs, hale, hrle, hop, hfr, hk, hv⟩ := h
  unfold fi_day
  rcases hcd : s.current_day with _ | cd
  · exact ⟨ha, h1, h2, ho, hd, hc, hs, hale, hrle, hop, hfr, hk, hv⟩
  · show FIInv P (if day ≠ cd then
      { fi_flush_day s cd P.length with
        current_day := some day, day_add := ∅, day_remove := ∅ }
      else s)
    by_cases hday : day = cd
    · rw [if_neg (not_not_intro hday)]
      exact ⟨ha, h1, h2, ho, hd, hc, hs, hale, hrle, hop, hfr, hk, hv⟩
    · rw [if_pos hday]
      show FIInv P ⟨s.day_keys ++ [cd], s.event_end_offset_by_day ++ [P.length],
        s.deltas ++ [(s.day_add, s.day_remove)], s.edge_dict, s.active,
        some day, ∅, ∅⟩
      have hoff_len : s.event_end_offset_by_day.length = s.deltas.length := by
        omega
      refine ⟨ha, ?_, ?_, ?_, ?_, ?_, ?_, ?_, ?_, ?_, ?_, hk, hv⟩
      · show (s.event_end_offset_by_day ++ [P.length]).length =
          (s.day_keys ++ [cd]).length
        simp [h1]
      · show (s.deltas ++ [(s.day_add, s.day_remove)]).length =
          (s.day_keys ++ [cd]).length
        simp [h2]
      · intro i hi
        show (s.event_end_offset_by_day ++ [P.length]).getD i 0 ≤ P.length
        have hi2 : i < s.deltas.length + 1 := by
          simpa using hi
        by_cases hlt : i < s.deltas.length
        · rw [getD_append_left _ _ _ _ (by omega)]
          exact ho i hlt
        · have hieq : i = s.event_end_offset_by_day.length := by omega
          rw [hieq, getD_concat_self]
      · intro i hi
        show cum_fin ((s.deltas ++ [(s.day_add, s.day_remove)]).take (i + 1)) =
          fi_open (P.take ((s.event_end_offset_by_day ++ [P.length]).getD i 0))
        have hi2 : i < s.deltas.length + 1 := by
          simpa using hi
        by_cases hlt : i < s.deltas.length
        · rw [List.take_append_of_le_length (by omega),
            getD_append_left _ _ _ _ (by omega)]
          exact hd i hlt
        · have hieq : i = s.deltas.length := by omega
          have htake : (s.deltas ++ [(s.day_add, s.day_remove)]).take (i + 1) =
              s.deltas ++ [(s.day_add, s.day_remove)] :=
            List.take_of_length_le (by simp [hieq])
          have hioff : i = s.event_end_offset_by_day.length := by omega
          rw [htake, cum_fin_append, hioff, getD_concat_self, List.take_length]
          show (cum_fin s.deltas ∪ s.day_add) \ s.day_remove = fi_open P
          rw [hc, fi_open_eq_val_set P s ha]
      · show (cum_fin (s.deltas ++ [(s.day_add, s.day_remove)]) ∪ ∅) \ ∅ =
          val_set s.active
        rw [Finset.union_empty, Finset.sdiff_empty, cum_fin_append]
        exact hc
      · intro x hx
        exact absurd hx (Finset.not_mem_empty x)
      · intro x
        show addC (s.deltas ++ [(s.day_add, s.day_remove)]) ∅ x ≤ 1
        rw [addC_eq, cnt_flush]
        exact hale x
      · intro x
        show remC (s.deltas ++ [(s.day_add, s.day_remove)]) ∅ x ≤
          addC (s.deltas ++ [(s.day_add, s.day_remove)]) ∅ x
        rw [addC_eq, remC_eq, cnt_flush, cnt_flush]
        exact hrle x
      · intro x hx
        have hx2 : x ∈ val_set s.active := hx
        obtain ⟨hr0, ha1⟩ := hop x hx2
        constructor
        · show remC (s.deltas ++ [(s.day_add, s.day_remove)]) ∅ x = 0
          rw [remC_eq, cnt_flush]
          exact hr0
        · show addC (s.deltas ++ [(s.day_add, s.day_remove)]) ∅ x = 1
          rw [addC_eq, cnt_flush]
          exact ha1
      · intro x hx
        have hx2 : s.edge_dict.length ≤ x := hx
        obtain ⟨hf1, hf2, hf3⟩ := hfr x hx2
        refine ⟨hf1, ?_, ?_⟩
        · show addC (s.deltas ++ [(s.day_add, s.day_remove)]) ∅ x = 0
          rw [addC_eq, cnt_flush]
          exact hf2
        · show remC (s.deltas ++ [(s.day_add, s.day_remove)]) ∅ x = 0
          rw [remC_eq, cnt_flush]
          exact hf3

theorem fold_open_append (P : List ReconRecord) (e : ReconRecord) :
    (P ++ [e]).foldl open_edges_step ([], 0) =
      open_edges_step (P.foldl open_edges_step ([], 0)) e := by
  rw [List.foldl_append]
  rfl

theorem hdays_extend (P : List ReconRecord) (e : ReconRecord)
    (deltas : List (Finset ℕ × Finset ℕ)) (off : List Nat)
    (ho : ∀ i, i < deltas.length → off.getD i 0 ≤ P.length)
    (hd : ∀ i, i < deltas.length →
      cum_fin (deltas.take (i + 1)) = fi_open (P.take (off.getD i 0))) :
    ∀ i, i < deltas.length →
      cum_fin (deltas.take (i + 1)) = fi_open ((P ++ [e]).take (off.getD i 0)) := by
  intro i hi
  rw [fi_open_take_append P e _ (ho i hi)]
  exact hd i hi

theorem hoffs_extend (P : List ReconRecord) (e : ReconRecord)
    (dl : Nat) (off : List Nat)
    (ho : ∀ i, i < dl → off.getD i 0 ≤ P.length) :
    ∀ i, i < dl → off.getD i 0 ≤ (P ++ [e]).length := by
  intro i hi
  rw [List.length_append]
  have := ho i hi
  simp only [List.length_cons, List.length_nil]
  omega

theorem cnt_le_insert (sel : Finset ℕ × Finset ℕ → Finset ℕ)
    (deltas : List (Finset ℕ × Finset ℕ)) (cur : Finset ℕ) (L x : ℕ) :
    cnt sel deltas cur x ≤ cnt sel deltas (insert L cur) x := by
  unfold cnt
  have h1 : (if x ∈ cur then 1 else 0) ≤ (if x ∈ insert L cur then 1 else 0) := by
    split_ifs with ha hb
    · omega
    · exact absurd (Finset.mem_insert_of_mem ha) hb
    · omega
    · omega
  omega

theorem notmem_cum_of_addC_zero (deltas : List (Finset ℕ × Finset ℕ))
    (cur : Finset ℕ) (x : ℕ) (h : addC deltas cur x = 0) : x ∉ cum_fin deltas := by
  intro hc
  obtain ⟨d, hd, hx⟩ := mem_cum_fin deltas x hc
  have h1 : 0 < deltas.countP (fun d => decide (x ∈ d.1)) :=
    List.countP_pos_iff.mpr ⟨d, hd, by simpa using hx⟩
  rw [addC_eq] at h
  unfold cnt at h
  simp only [] at h
  split_ifs at h
  all_goals omega

theorem notmem_cur_of_cnt_zero (sel : Finset ℕ × Finset ℕ → Finset ℕ)
    (deltas : List (Finset ℕ × Finset ℕ)) (cur : Finset ℕ) (x : ℕ)
    (h : cnt sel deltas cur x = 0) : x ∉ cur := by
  intro hc
  have := cnt_pos_of_mem sel deltas cur x hc
  omega

/-- Events with neither an opening nor a terminal action leave the builder
state unchanged. -/
theorem FIInv_act_other (P : List ReconRecord) (e : ReconRecord) (s : FIState)
    (h : FIInv P s)
    (hsig : ¬ normalize_action (some e.action) = "signed")
    (hterm : TERMINAL_ACTIONS.contains (normalize_action (some e.action)) = false) :
    FIInv (P ++ [e]) s := by
  obtain ⟨ha, h1, h2, ho, hd, hc, hs, hale, hrle, hop, hfr, hk, hv⟩ := h
  refine ⟨?_, h1, h2, hoffs_extend P e _ _ ho, hdays_extend P e _ _ ho hd,
    hc, hs, hale, hrle, hop, hfr, hk, hv⟩
  rw [fold_open_append, ← ha]
  have hterm2 : normalize_action (some e.action) ∉ TERMINAL_ACTIONS := by
    simpa using hterm
  simp [open_edges_step, hsig, hterm2]

/-- A terminal action on a pair with no open treaty of that type leaves the
builder state unchanged. -/
theorem FIInv_act_term_none (P : List ReconRecord) (e : ReconRecord) (s : FIState)
    (h : FIInv P s)
    (hsig : ¬ normalize_action (some e.action) = "signed")
    (hg : dict_get s.active (rec_key e) = none) :
    FIInv (P ++ [e]) s := by
  obtain ⟨ha, h1, h2, ho, hd, hc, hs, hale, hrle, hop, hfr, hk, hv⟩ := h
  refine ⟨?_, h1, h2, hoffs_extend P e _ _ ho, hdays_extend P e _ _ ho hd,
    hc, hs, hale, hrle, hop, hfr, hk, hv⟩
  rw [fold_open_append, ← ha]
  unfold open_edges_step
  rw [if_neg hsig]
  by_cases hterm : TERMINAL_ACTIONS.contains (normalize_action (some e.action)) = true
  · simp only [hterm, if_true]
    rw [dict_del_of_get_none s.active (rec_key e) hg]
  · have h3 : normalize_action (some e.action) ∉ TERMINAL_ACTIONS := by
      simpa using Bool.eq_false_iff.mpr hterm
    simp [h3]

/-- A terminal action closing a treaty that was opened earlier the same day:
the pending add is cancelled out of the day bucket. -/
theorem FIInv_act_term_mem (P : List ReconRecord) (e : ReconRecord) (s : FIState)
    (p : ℕ) (h : FIInv P s)
    (hsig : ¬ normalize_action (some e.action) = "signed")
    (hterm : TERMINAL_ACTIONS.contains (normalize_action (some e.action)) = true)
    (hg : dict_get s.active (rec_key e) = some p) (hmem : p ∈ s.day_add) :
    FIInv (P ++ [e])
      { s with active := dict_del s.active (rec_key e),
               day_add := s.day_add.erase p } := by
  obtain ⟨ha, h1, h2, ho, hd, hc, hs, hale, hrle, hop, hfr, hk, hv⟩ := h
  have hpv : p ∈ val_set s.active := dict_get_some_mem s.active (rec_key e) p hg
  obtain ⟨hpr, hpa⟩ := hop p hpv
  have hdel : val_set (dict_del s.active (rec_key e)) = (val_set s.active).erase p :=
    val_set_dict_del_some s.active (rec_key e) p hg hk hv
  have hpc : p ∉ cum_fin s.deltas := by
    apply notmem_cum_of_cnt s.deltas s.day_add p hmem
    have := hale p
    rw [addC_eq] at this
    exact this
  have hprm : p ∉ s.day_remove := by
    apply notmem_cur_of_cnt_zero (fun d => d.2) s.deltas s.day_remove p
    rw [← remC_eq]
    exact hpr
  refine ⟨?_, h1, h2, hoffs_extend P e _ _ ho, hdays_extend P e _ _ ho hd,
    ?_, ?_, ?_, ?_, ?_, ?_, ?_, ?_⟩
  · show (dict_del s.active (rec_key e), s.edge_dict.length) = _
    rw [fold_open_append, ← ha]
    have hterm2 : normalize_action (some e.action) ∈ TERMINAL_ACTIONS := by
      simpa using hterm
    simp [open_edges_step, hsig, hterm2]
  · show (cum_fin s.deltas ∪ s.day_add.erase p) \ s.day_remove =
      val_set (dict_del s.active (rec_key e))
    rw [hdel, ← hc]
    ext x
    by_cases hxp : x = p
    · subst hxp
      simp [Finset.mem_sdiff, Finset.mem_union, Finset.mem_erase, hpc, hprm]
    · simp only [Finset.mem_sdiff, Finset.mem_union, Finset.mem_erase, hxp,
        not_false_iff, true_and, ne_eq]
  · intro x hx
    have hx2 : x ∈ s.day_add.erase p := hx
    obtain ⟨hxp, hxA⟩ := Finset.mem_erase.mp hx2
    show x ∈ val_set (dict_del s.active (rec_key e))
    rw [hdel]
    exact Finset.mem_erase.mpr ⟨hxp, hs x hxA⟩
  · intro x
    show addC s.deltas (s.day_add.erase p) x ≤ 1
    by_cases hxp : x = p
    · subst hxp
      rw [addC_eq, cnt_erase_self]
      have h4 := countP_le_cnt (fun d => d.1) s.deltas s.day_add x
      have h5 := hale x
      rw [addC_eq] at h5
      omega
    · rw [addC_eq, cnt_erase_ne _ _ _ _ _ hxp, ← addC_eq]
      exact hale x
  · intro x
    show remC s.deltas s.day_remove x ≤ addC s.deltas (s.day_add.erase p) x
    by_cases hxp : x = p
    · subst hxp
      rw [hpr]
      exact Nat.zero_le _
    · rw [addC_eq, cnt_erase_ne _ _ _ _ _ hxp, ← addC_eq]
      exact hrle x
  · intro x hx
    have hx2 : x ∈ val_set (dict_del s.active (rec_key e)) := hx
    rw [hdel] at hx2
    obtain ⟨hxp, hxv⟩ := Finset.mem_erase.mp hx2
    obtain ⟨hr0, ha1⟩ := hop x hxv
    refine ⟨hr0, ?_⟩
    show addC s.deltas (s.day_add.erase p) x = 1
    rw [addC_eq, cnt_erase_ne _ _ _ _ _ hxp, ← addC_eq]
    exact ha1
  · intro x hx
    have hx2 : s.edge_dict.length ≤ x := hx
    obtain ⟨hf1, hf2, hf3⟩ := hfr x hx2
    have hxp : x ≠ p := fun hcm => hf1 (hcm ▸ hpv)
    refine ⟨?_, ?_, hf3⟩
    · show x ∉ val_set (dict_del s.active (rec_key e))
      rw [hdel]
      intro hcm
      exact hf1 (Finset.mem_of_mem_erase hcm)
    · show addC s.deltas (s.day_add.erase p) x = 0
      rw [addC_eq, cnt_erase_ne _ _ _ _ _ hxp, ← addC_eq]
      exact hf2
  · exact map_dict_del_nodup s.active (rec_key e) Prod.fst hk
  · exact map_dict_del_nodup s.active (rec_key e) (fun p => p.2) hv

/-- A terminal action closing a treaty opened on an earlier day: the edge
id goes into the day's remove set. -/
theorem FIInv_act_term_notmem (P : List ReconRecord) (e : ReconRecord) (s : FIState)
    (p : ℕ) (h : FIInv P s)
    (hsig : ¬ normalize_action (some e.action) = "signed")
    (hterm : TERMINAL_ACTIONS.contains (normalize_action (some e.action)) = true)
    (hg : dict_get s.active (rec_key e) = some p) (hmem : p ∉ s.day_add) :
    FIInv (P ++ [e])
      { s with active := dict_del s.active (rec_key e),
               day_remove := insert p s.day_remove } := by
  obtain ⟨ha, h1, h2, ho, hd, hc, hs, hale, hrle, hop, hfr, hk, hv⟩ := h
  have hpv : p ∈ val_set s.active := dict_get_some_mem s.active (rec_key e) p hg
  obtain ⟨hpr, hpa⟩ := hop p hpv
  have hdel : val_set (dict_del s.active (rec_key e)) = (val_set s.active).erase p :=
    val_set_dict_del_some s.active (rec_key e) p hg hk hv
  have hprm : p ∉ s.day_remove := by
    apply notmem_cur_of_cnt_zero (fun d => d.2) s.deltas s.day_remove p
    rw [← remC_eq]
    exact hpr
  refine ⟨?_, h1, h2, hoffs_extend P e _ _ ho, hdays_extend P e _ _ ho hd,
    ?_, ?_, ?_, ?_, ?_, ?_, ?_, ?_⟩
  · show (dict_del s.active (rec_key e), s.edge_dict.length) = _
    rw [fold_open_append, ← ha]
    have hterm2 : normalize_action (some e.action) ∈ TERMINAL_ACTIONS := by
      simpa using hterm
    simp [open_edges_step, hsig, hterm2]
  · show (cum_fin s.deltas ∪ s.day_add) \ insert p s.day_remove =
      val_set (dict_del s.active (rec_key e))
    rw [hdel, ← hc]
    ext x
    by_cases hxp : x = p
    · subst hxp
      simp [Finset.mem_sdiff, Finset.mem_union, Finset.mem_erase, Finset.mem_insert]
    · simp only [Finset.mem_sdiff, Finset.mem_union, Finset.mem_erase,
        Finset.mem_insert, hxp, not_false_iff, true_and, ne_eq, false_or]
  · intro x hx
    have hx2 : x ∈ s.day_add := hx
    show x ∈ val_set (dict_del s.active (rec_key e))
    rw [hdel]
    exact Finset.mem_erase.mpr ⟨fun hcm => hmem (hcm ▸ hx2), hs x hx2⟩
  · intro x
    exact hale x
  · intro x
    show remC s.deltas (insert p s.day_remove) x ≤ addC s.deltas s.day_add x
    by_cases hxp : x = p
    · subst hxp
      rw [remC_eq, cnt_insert_self _ _ _ _ (by rw [← remC_eq]; exact hpr), hpa]
    · rw [remC_eq, cnt_insert_ne _ _ _ _ _ hxp, ← remC_eq]
      exact hrle x
  · intro x hx
    have hx2 : x ∈ val_set (dict_del s.active (rec_key e)) := hx
    rw [hdel] at hx2
    obtain ⟨hxp, hxv⟩ := Finset.mem_erase.mp hx2
    obtain ⟨hr0, ha1⟩ := hop x hxv
    refine ⟨?_, ha1⟩
    show remC s.deltas (insert p s.day_remove) x = 0
    rw [remC_eq, cnt_insert_ne _ _ _ _ _ hxp, ← remC_eq]
    exact hr0
  · intro x hx
    have hx2 : s.edge_dict.length ≤ x := hx
    obtain ⟨hf1, hf2, hf3⟩ := hfr x hx2
    have hxp : x ≠ p := fun hcm => hf1 (hcm ▸ hpv)
    refine ⟨?_, hf2, ?_⟩
    · show x ∉ val_set (dict_del s.active (rec_key e))
      rw [hdel]
      intro hcm
      exact hf1 (Finset.mem_of_mem_erase hcm)
    · show remC s.deltas (insert p s.day_remove) x = 0
      rw [remC_eq, cnt_insert_ne _ _ _ _ _ hxp, ← remC_eq]
      exact hf3
  · exact map_dict_del_nodup s.active (rec_key e) Prod.fst hk
  · exact map_dict_del_nodup s.active (rec_key e) (fun p => p.2) hv

/-- A `signed` event on a pair with no open treaty of that type: a fresh
edge id is appended and added to the day bucket. -/
theorem FIInv_act_signed_none (P : List ReconRecord) (e : ReconRecord) (s : FIState)
    (h : FIInv P s)
    (hsig : normalize_action (some e.action) = "signed")
    (hg : dict_get s.active (rec_key e) = none) :
    FIInv (P ++ [e])
      { s with
        edge_dict := s.edge_dict ++
          [(P.length, e.pair_min_id, e.pair_max_id, e.treaty_type)],
        active := dict_set s.active (rec_key e) s.edge_dict.length,
        day_add := insert s.edge_dict.length s.day_add } := by
  obtain ⟨ha, h1, h2, ho, hd, hc, hs, hale, hrle, hop, hfr, hk, hv⟩ := h
  obtain ⟨hL1, hL2, hL3⟩ := hfr s.edge_dict.length (le_refl _)
  have hLa : s.edge_dict.length ∉ s.day_add := by
    apply notmem_cur_of_cnt_zero (fun d => d.1) s.deltas s.day_add
    rw [← addC_eq]
    exact hL2
  have hLr : s.edge_dict.length ∉ s.day_remove := by
    apply notmem_cur_of_cnt_zero (fun d => d.2) s.deltas s.day_remove
    rw [← remC_eq]
    exact hL3
  have hLc : s.edge_dict.length ∉ cum_fin s.deltas :=
    notmem_cum_of_addC_zero s.deltas s.day_add s.edge_dict.length hL2
  have hset : val_set (dict_set s.active (rec_key e) s.edge_dict.length) =
      insert s.edge_dict.length (val_set s.active) :=
    val_set_dict_set_none s.active (rec_key e) s.edge_dict.length hg
  refine ⟨?_, h1, h2, hoffs_extend P e _ _ ho, hdays_extend P e _ _ ho hd,
    ?_, ?_, ?_, ?_, ?_, ?_, ?_, ?_⟩
  · show (dict_set s.active (rec_key e) s.edge_dict.length,
      (s.edge_dict ++ [(P.length, e.pair_min_id, e.pair_max_id, e.treaty_type)]).length) = _
    rw [fold_open_append, ← ha]
    simp [open_edges_step, hsig]
  · show (cum_fin s.deltas ∪ insert s.edge_dict.length s.day_add) \ s.day_remove =
      val_set (dict_set s.active (rec_key e) s.edge_dict.length)
    rw [hset, ← hc]
    ext x
    by_cases hxL : x = s.edge_dict.length
    · subst hxL
      simp [Finset.mem_sdiff, Finset.mem_union, Finset.mem_insert, hLr]
    · simp only [Finset.mem_sdiff, Finset.mem_union, Finset.mem_insert, hxL,
        false_or, ne_eq]
  · intro x hx
    have hx2 : x ∈ insert s.edge_dict.length s.day_add := hx
    show x ∈ val_set (dict_set s.active (rec_key e) s.edge_dict.length)
    rw [hset]
    rcases Finset.mem_insert.mp hx2 with hxL | hxA
    · exact hxL ▸ Finset.mem_insert_self _ _
    · exact Finset.mem_insert_of_mem (hs x hxA)
  · intro x
    show addC s.deltas (insert s.edge_dict.length s.day_add) x ≤ 1
    by_cases hxL : x = s.edge_dict.length
    · subst hxL
      rw [addC_eq, cnt_insert_self _ _ _ _ (by rw [← addC_eq]; exact hL2)]
    · rw [addC_eq, cnt_insert_ne _ _ _ _ _ hxL, ← addC_eq]
      exact hale x
  · intro x
    show remC s.deltas s.day_remove x ≤
      addC s.deltas (insert s.edge_dict.length s.day_add) x
    exact le_trans (hrle x) (cnt_le_insert (fun d => d.1) s.deltas s.day_add _ x)
  · intro x hx
    have hx2 : x ∈ val_set (dict_set s.active (rec_key e) s.edge_dict.length) := hx
    rw [hset] at hx2
    rcases Finset.mem_insert.mp hx2 with hxL | hxv
    · subst hxL
      refine ⟨hL3, ?_⟩
      show addC s.deltas (insert s.edge_dict.length s.day_add) s.edge_dict.length = 1
      rw [addC_eq, cnt_insert_self _ _ _ _ (by rw [← addC_eq]; exact hL2)]
    · obtain ⟨hr0, ha1⟩ := hop x hxv
      have hxL : x ≠ s.edge_dict.length := fun hcm => hL1 (hcm ▸ hxv)
      refine ⟨hr0, ?_⟩
      show addC s.deltas (insert s.edge_dict.length s.day_add) x = 1
      rw [addC_eq, cnt_insert_ne _ _ _ _ _ hxL, ← addC_eq]
      exact ha1
  · intro x hx
    have hx2 : (s.edge_dict ++
        [(P.length, e.pair_min_id, e.pair_max_id, e.treaty_type)]).length ≤ x := hx
    rw [List.length_append] at hx2
    have hx3 : s.edge_dict.length + 1 ≤ x := by
      simpa using hx2
    obtain ⟨hf1, hf2, hf3⟩ := hfr x (by omega)
    have hxL : x ≠ s.edge_dict.length := by omega
    refine ⟨?_, ?_, hf3⟩
    · show x ∉ val_set (dict_set s.active (rec_key e) s.edge_dict.length)
      rw [hset]
      intro hcm
      rcases Finset.mem_insert.mp hcm with hc1 | hc1
      · exact hxL hc1
      · exact hf1 hc1
    · show addC s.deltas (insert s.edge_dict.length s.day_add) x = 0
      rw [addC_eq, cnt_insert_ne _ _ _ _ _ hxL, ← addC_eq]
      exact hf2
  · exact keys_nodup_dict_set s.active (rec_key e) s.edge_dict.length hk
  · apply vals_nodup_dict_set s.active (rec_key e) s.edge_dict.length hk hv
    intro hcm
    exact hL1 ((mem_val_set_iff s.active s.edge_dict.length).mpr hcm)

/-- A `signed` event replacing a treaty that was opened the same day: the
pending add of the replaced edge is cancelled and the fresh id is added. -/
theorem FIInv_act_signed_mem (P : List ReconRecord) (e : ReconRecord) (s : FIState)
    (p : ℕ) (h : FIInv P s)
    (hsig : normalize_action (some e.action) = "signed")
    (hg : dict_get s.active (rec_key e) = some p) (hmem : p ∈ s.day_add) :
    FIInv (P ++ [e])
      { s with
        edge_dict := s.edge_dict ++
          [(P.length, e.pair_min_id, e.pair_max_id, e.treaty_type)],
        active := dict_set s.active (rec_key e) s.edge_dict.length,
        day_add := insert s.edge_dict.length (s.day_add.erase p) } := by
  obtain ⟨ha, h1, h2, ho, hd, hc, hs, hale, hrle, hop, hfr, hk, hv⟩ := h
  have hpv : p ∈ val_set s.active := dict_get_some_mem s.active (rec_key e) p hg
  obtain ⟨hpr, hpa⟩ := hop p hpv
  obtain ⟨hL1, hL2, hL3⟩ := hfr s.edge_dict.length (le_refl _)
  have hLp : ¬ s.edge_dict.length = p := fun hcm => hL1 (hcm ▸ hpv)
  have hLa : s.edge_dict.length ∉ s.day_add := by
    apply notmem_cur_of_cnt_zero (fun d => d.1) s.deltas s.day_add
    rw [← addC_eq]
    exact hL2
  have hLr : s.edge_dict.length ∉ s.day_remove := by
    apply notmem_cur_of_cnt_zero (fun d => d.2) s.deltas s.day_remove
    rw [← remC_eq]
    exact hL3
  have hLc : s.edge_dict.length ∉ cum_fin s.deltas :=
    notmem_cum_of_addC_zero s.deltas s.day_add s.edge_dict.length hL2
  have hpc : p ∉ cum_fin s.deltas := by
    apply notmem_cum_of_cnt s.deltas s.day_add p hmem
    have := hale p
    rw [addC_eq] at this
    exact this
  have hprm : p ∉ s.day_remove := by
    apply notmem_cur_of_cnt_zero (fun d => d.2) s.deltas s.day_remove p
    rw [← remC_eq]
    exact hpr
  have hset : val_set (dict_set s.active (rec_key e) s.edge_dict.length) =
      insert s.edge_dict.length ((val_set s.active).erase p) :=
    val_set_dict_set_some s.active (rec_key e) p s.edge_dict.length hg hk hv
  refine ⟨?_, h1, h2, hoffs_extend P e _ _ ho, hdays_extend P e _ _ ho hd,
    ?_, ?_, ?_, ?_, ?_, ?_, ?_, ?_⟩
  · show (dict_set s.active (rec_key e) s.edge_dict.length,
      (s.edge_dict ++ [(P.length, e.pair_min_id, e.pair_max_id, e.treaty_type)]).length) = _
    rw [fold_open_append, ← ha]
    simp [open_edges_step, hsig]
  · show (cum_fin s.deltas ∪ insert s.edge_dict.length (s.day_add.erase p)) \
      s.day_remove = val_set (dict_set s.active (rec_key e) s.edge_dict.length)
    rw [hset, ← hc]
    ext x
    by_cases hxL : x = s.edge_dict.length
    · subst hxL
      simp [Finset.mem_sdiff, Finset.mem_union, Finset.mem_insert,
        Finset.mem_erase, hLr]
    · by_cases hxp : x = p
      · subst hxp
        simp [Finset.mem_sdiff, Finset.mem_union, Finset.mem_insert,
          Finset.mem_erase, hpc, hprm, Ne.symm hxL]
      · simp only [Finset.mem_sdiff, Finset.mem_union, Finset.mem_insert,
          Finset.mem_erase, hxL, hxp, false_or, ne_eq, not_false_iff, true_and]
  · intro x hx
    have hx2 : x ∈ insert s.edge_dict.length (s.day_add.erase p) := hx
    show x ∈ val_set (dict_set s.active (rec_key e) s.edge_dict.length)
    rw [hset]
    rcases Finset.mem_insert.mp hx2 with hxL | hxA
    · exact hxL ▸ Finset.mem_insert_self _ _
    · obtain ⟨hxp, hxA2⟩ := Finset.mem_erase.mp hxA
      exact Finset.mem_insert_of_mem (Finset.mem_erase.mpr ⟨hxp, hs x hxA2⟩)
  · intro x
    show addC s.deltas (insert s.edge_dict.length (s.day_add.erase p)) x ≤ 1
    by_cases hxL : x = s.edge_dict.length
    · subst hxL
      rw [addC_eq, cnt_insert_self]
      rw [cnt_erase_ne _ _ _ _ _ hLp, ← addC_eq]
      exact hL2
    · rw [addC_eq, cnt_insert_ne _ _ _ _ _ hxL]
      by_cases hxp : x = p
      · subst hxp
        rw [cnt_erase_self]
        have h4 := countP_le_cnt (fun d => d.1) s.deltas s.day_add x
        have h5 := hale x
        rw [addC_eq] at h5
        omega
      · rw [cnt_erase_ne _ _ _ _ _ hxp, ← addC_eq]
        exact hale x
  · intro x
    show remC s.deltas s.day_remove x ≤
      addC s.deltas (insert s.edge_dict.length (s.day_add.erase p)) x
    by_cases hxp : x = p
    · subst hxp
      rw [hpr]
      exact Nat.zero_le _
    · refine le_trans (hrle x) ?_
      rw [addC_eq, addC_eq]
      refine le_trans ?_ (cnt_le_insert (fun d => d.1) s.deltas (s.day_add.erase p)
        s.edge_dict.length x)
      rw [cnt_erase_ne _ _ _ _ _ hxp]
  · intro x hx
    have hx2 : x ∈ val_set (dict_set s.active (rec_key e) s.edge_dict.length) := hx
    rw [hset] at hx2
    rcases Finset.mem_insert.mp hx2 with hxL | hxv
    · subst hxL
      refine ⟨hL3, ?_⟩
      show addC s.deltas
        (insert s.edge_dict.length (s.day_add.erase p)) s.edge_dict.length = 1
      rw [addC_eq, cnt_insert_self]
      rw [cnt_erase_ne _ _ _ _ _ hLp, ← addC_eq]
      exact hL2
    · obtain ⟨hxp, hxv2⟩ := Finset.mem_erase.mp hxv
      obtain ⟨hr0, ha1⟩ := hop x hxv2
      have hxL : x ≠ s.edge_dict.length := fun hcm => hL1 (hcm ▸ hxv2)
      refine ⟨hr0, ?_⟩
      show addC s.deltas (insert s.edge_dict.length (s.day_add.erase p)) x = 1
      rw [addC_eq, cnt_insert_ne _ _ _ _ _ hxL, cnt_erase_ne _ _ _ _ _ hxp, ← addC_eq]
      exact ha1
  · intro x hx
    have hx2 : (s.edge_dict ++
        [(P.length, e.pair_min_id, e.pair_max_id, e.treaty_type)]).length ≤ x := hx
    rw [List.length_append] at hx2
    have hx3 : s.edge_dict.length + 1 ≤ x := by
      simpa using hx2
    obtain ⟨hf1, hf2, hf3⟩ := hfr x (by omega)
    have hxL : x ≠ s.edge_dict.length := by omega
    have hxp : x ≠ p := fun hcm => hf1 (hcm ▸ hpv)
    refine ⟨?_, ?_, hf3⟩
    · show x ∉ val_set (dict_set s.active (rec_key e) s.edge_dict.length)
      rw [hset]
      intro hcm
      rcases Finset.mem_insert.mp hcm with hc1 | hc1
      · exact hxL hc1
      · exact hf1 (Finset.mem_of_mem_erase hc1)
    · show addC s.deltas (insert s.edge_dict.length (s.day_add.erase p)) x = 0
      rw [addC_eq, cnt_insert_ne _ _ _ _ _ hxL, cnt_erase_ne _ _ _ _ _ hxp, ← addC_eq]
      exact hf2
  · exact keys_nodup_dict_set s.active (rec_key e) s.edge_dict.length hk
  · apply vals_nodup_dict_set s.active (rec_key e) s.edge_dict.length hk hv
    intro hcm
    exact hL1 ((mem_val_set_iff s.active s.edge_dict.length).mpr hcm)

/-- A `signed` event replacing a treaty opened on an earlier day: the old
edge id goes to the remove set and the fresh id to the add set. -/
theorem FIInv_act_signed_notmem (P : List ReconRecord) (e : ReconRecord) (s : FIState)
    (p : ℕ) (h : FIInv P s)
    (hsig : normalize_action (some e.action) = "signed")
    (hg : dict_get s.active (rec_key e) = some p) (hmem : p ∉ s.day_add) :
    FIInv (P ++ [e])
      { s with
        edge_dict := s.edge_dict ++
          [(P.length, e.pair_min_id, e.pair_max_id, e.treaty_type)],
        active := dict_set s.active (rec_key e) s.edge_dict.length,
        day_add := insert s.edge_dict.length s.day_add,
        day_remove := insert p s.day_remove } := by
  obtain ⟨ha, h1, h2, ho, hd, hc, hs, hale, hrle, hop, hfr, hk, hv⟩ := h
  have hpv : p ∈ val_set s.active := dict_get_some_mem s.active (rec_key e) p hg
  obtain ⟨hpr, hpa⟩ := hop p hpv
  obtain ⟨hL1, hL2, hL3⟩ := hfr s.edge_dict.length (le_refl _)
  have hLp : ¬ s.edge_dict.length = p := fun hcm => hL1 (hcm ▸ hpv)
  have hLa : s.edge_dict.length ∉ s.day_add := by
    apply notmem_cur_of_cnt_zero (fun d => d.1) s.deltas s.day_add
    rw [← addC_eq]
    exact hL2
  have hLr : s.edge_dict.length ∉ s.day_remove := by
    apply notmem_cur_of_cnt_zero (fun d => d.2) s.deltas s.day_remove
    rw [← remC_eq]
    exact hL3
  have hprm : p ∉ s.day_remove := by
    apply notmem_cur_of_cnt_zero (fun d => d.2) s.deltas s.day_remove p
    rw [← remC_eq]
    exact hpr
  have hset : val_set (dict_set s.active (rec_key e) s.edge_dict.length) =
      insert s.edge_dict.length ((val_set s.active).erase p) :=
    val_set_dict_set_some s.active (rec_key e) p s.edge_dict.length hg hk hv
  refine ⟨?_, h1, h2, hoffs_extend P e _ _ ho, hdays_extend P e _ _ ho hd,
    ?_, ?_, ?_, ?_, ?_, ?_, ?_, ?_⟩
  · show (dict_set s.active (rec_key e) s.edge_dict.length,
      (s.edge_dict ++ [(P.length, e.pair_min_id, e.pair_max_id, e.treaty_type)]).length) = _
    rw [fold_open_append, ← ha]
    simp [open_edges_step, hsig]
  · show (cum_fin s.deltas ∪ insert s.edge_dict.length s.day_add) \
      insert p s.day_remove =
      val_set (dict_set s.active (rec_key e) s.edge_dict.length)
    rw [hset, ← hc]
    ext x
    by_cases hxL : x = s.edge_dict.length
    · subst hxL
      simp [Finset.mem_sdiff, Finset.mem_union, Finset.mem_insert,
        Finset.mem_erase, hLr, hLp]
    · by_cases hxp : x = p
      · subst hxp
        simp [Finset.mem_sdiff, Finset.mem_union, Finset.mem_insert,
          Finset.mem_erase, Ne.symm hxL, hxL]
      · simp only [Finset.mem_sdiff, Finset.mem_union, Finset.mem_insert,
          Finset.mem_erase, hxL, hxp, false_or, ne_eq, not_false_iff, true_and]
  · intro x hx
    have hx2 : x ∈ insert s.edge_dict.length s.day_add := hx
    show x ∈ val_set (dict_set s.active (rec_key e) s.edge_dict.length)
    rw [hset]
    rcases Finset.mem_insert.mp hx2 with hxL | hxA
    · exact hxL ▸ Finset.mem_insert_self _ _
    · refine Finset.mem_insert_of_mem (Finset.mem_erase.mpr ⟨?_, hs x hxA⟩)
      exact fun hcm => hmem (hcm ▸ hxA)
  · intro x
    show addC s.deltas (insert s.edge_dict.length s.day_add) x ≤ 1
    by_cases hxL : x = s.edge_dict.length
    · subst hxL
      rw [addC_eq, cnt_insert_self _ _ _ _ (by rw [← addC_eq]; exact hL2)]
    · rw [addC_eq, cnt_insert_ne _ _ _ _ _ hxL, ← addC_eq]
      exact hale x
  · intro x
    show remC s.deltas (insert p s.day_remove) x ≤
      addC s.deltas (insert s.edge_dict.length s.day_add) x
    by_cases hxp : x = p
    · subst hxp
      rw [remC_eq, cnt_insert_self _ _ _ _ (by rw [← remC_eq]; exact hpr)]
      rw [addC_eq, cnt_insert_ne _ _ _ _ _ (fun hcm => hLp hcm.symm), ← addC_eq, hpa]
    · rw [remC_eq, cnt_insert_ne _ _ _ _ _ hxp, ← remC_eq]
      exact le_trans (hrle x) (cnt_le_insert (fun d => d.1) s.deltas s.day_add _ x)
  · intro x hx
    have hx2 : x ∈ val_set (dict_set s.active (rec_key e) s.edge_dict.length) := hx
    rw [hset] at hx2
    rcases Finset.mem_insert.mp hx2 with hxL | hxv
    · subst hxL
      constructor
      · show remC s.deltas (insert p s.day_remove) s.edge_dict.length = 0
        rw [remC_eq, cnt_insert_ne _ _ _ _ _ hLp, ← remC_eq]
        exact hL3
      · show addC s.deltas
          (insert s.edge_dict.length s.day_add) s.edge_dict.length = 1
        rw [addC_eq, cnt_insert_self _ _ _ _ (by rw [← addC_eq]; exact hL2)]
    · obtain ⟨hxp, hxv2⟩ := Finset.mem_erase.mp hxv
      obtain ⟨hr0, ha1⟩ := hop x hxv2
      have hxL : x ≠ s.edge_dict.length := fun hcm => hL1 (hcm ▸ hxv2)
      constructor
      · show remC s.deltas (insert p s.day_remove) x = 0
        rw [remC_eq, cnt_insert_ne _ _ _ _ _ hxp, ← remC_eq]
        exact hr0
      · show addC s.deltas (insert s.edge_dict.length s.day_add) x = 1
        rw [addC_eq, cnt_insert_ne _ _ _ _ _ hxL, ← addC_eq]
        exact ha1
  · intro x hx
    have hx2 : (s.edge_dict ++
        [(P.length, e.pair_min_id, e.pair_max_id, e.treaty_type)]).length ≤ x := hx
    rw [List.length_append] at hx2
    have hx3 : s.edge_dict.length + 1 ≤ x := by
      simpa using hx2
    obtain ⟨hf1, hf2, hf3⟩ := hfr x (by omega)
    have hxL : x ≠ s.edge_dict.length := by omega
    have hxp : x ≠ p := fun hcm => hf1 (hcm ▸ hpv)
    refine ⟨?_, ?_, ?_⟩
    · show x ∉ val_set (dict_set s.active (rec_key e) s.edge_dict.length)
      rw [hset]
      intro hcm
      rcases Finset.mem_insert.mp hcm with hc1 | hc1
      · exact hxL hc1
      · exact hf1 (Finset.mem_of_mem_erase hc1)
    · show addC s.deltas (insert s.edge_dict.length s.day_add) x = 0
      rw [addC_eq, cnt_insert_ne _ _ _ _ _ hxL, ← addC_eq]
      exact hf2
    · show remC s.deltas (insert p s.day_remove) x = 0
      rw [remC_eq, cnt_insert_ne _ _ _ _ _ hxp, ← remC_eq]
      exact hf3
  · exact keys_nodup_dict_set s.active (rec_key e) s.edge_dict.length hk
  · apply vals_nodup_dict_set s.active (rec_key e) s.edge_dict.length hk hv
    intro hcm
    exact hL1 ((mem_val_set_iff s.active s.edge_dict.length).mpr hcm)

/-- The event-handling part of one builder step preserves the invariant,
consuming event `e` at index `P.length`. -/
theorem FIInv_fi_act (P : List ReconRecord) (e : ReconRecord) (s : FIState)
    (h : FIInv P s) : FIInv (P ++ [e]) (fi_act s P.length e) := by
  unfold fi_act
  by_cases hsig : normalize_action (some e.action) = "signed"
  · rw [if_pos hsig]
    rcases hg : dict_get s.active (rec_key e) with _ | p
    · simp only [hg]
      exact FIInv_act_signed_none P e s h hsig hg
    · simp only [hg]
      unfold fi_resolve
      by_cases hmem : p ∈ s.day_add
      · simp only [hmem, if_pos]
        exact FIInv_act_signed_mem P e s p h hsig hg hmem
      · simp only [hmem, if_neg, if_false]
        exact FIInv_act_signed_notmem P e s p h hsig hg hmem
  · rw [if_neg hsig]
    by_cases hterm : TERMINAL_ACTIONS.contains (normalize_action (some e.action)) = true
    · simp only [hterm, if_true]
      rcases hg : dict_get s.active (rec_key e) with _ | p
      · simp only [hg]
        exact FIInv_act_term_none P e s h hsig hg
      · simp only [hg]
        unfold fi_resolve
        by_cases hmem : p ∈ s.day_add
        · simp only [hmem, if_pos]
          exact FIInv_act_term_mem P e s p h hsig hterm hg hmem
        · simp only [hmem, if_neg, if_false]
          exact FIInv_act_term_notmem P e s p h hsig hterm hg hmem
    · have hterm2 : TERMINAL_ACTIONS.contains (normalize_action (some e.action)) = false :=
        Bool.eq_false_iff.mpr hterm
      simp only [hterm2, Bool.false_eq_true, if_false]
      exact FIInv_act_other P e s h hsig hterm2

/-- One full builder step preserves the invariant. -/
theorem FIInv_fi_step (P : List ReconRecord) (e : ReconRecord) (s : FIState)
    (h : FIInv P s) : FIInv (P ++ [e]) (fi_step s (P.length, e)) := by
  rw [fi_step_eq]
  exact FIInv_fi_act P e _ (FIInv_fi_day P s (day_of e.timestamp) h)

/-- Folding the builder over an enumerated suffix preserves the invariant. -/
theorem FIInv_foldl (l : List ReconRecord) :
    ∀ (P : List ReconRecord) (s : FIState), FIInv P s →
      FIInv (P ++ l) ((List.enumFrom P.length l).foldl fi_step s) := by
  induction l with
  | nil =>
    intro P s h
    simpa using h
  | cons e t ih =>
    intro P s h
    have h1 : FIInv (P ++ [e]) (fi_step s (P.length, e)) := FIInv_fi_step P e s h
    have h2 := ih (P ++ [e]) _ h1
    rw [List.length_append] at h2
    have h3 : (P ++ [e]) ++ t = P ++ (e :: t) := by
      simp
    rw [h3] at h2
    show FIInv (P ++ (e :: t))
      ((List.enumFrom (P.length + 1) t).foldl fi_step (fi_step s (P.length, e)))
    simpa using h2

/-- The invariant holds of the initial state with the empty prefix. -/
theorem FIInv_init : FIInv [] fi_init := by
  refine ⟨rfl, rfl, rfl, ?_, ?_, ?_, ?_, ?_, ?_, ?_, ?_, ?_, ?_⟩
  · intro i hi
    simp [fi_init] at hi
  · intro i hi
    simp [fi_init] at hi
  · show (cum_fin [] ∪ ∅) \ ∅ = val_set ([] : List (TreatyKey × ℕ))
    simp [cum_fin, val_set]
  · intro x hx
    exact absurd hx (Finset.not_mem_empty x)
  · intro x
    show addC [] ∅ x ≤ 1
    simp [addC, cnt]
  · intro x
    show remC [] ∅ x ≤ addC [] ∅ x
    simp [addC, remC, cnt]
  · intro x hx
    exact absurd hx (by simp [val_set, fi_init])
  · intro x hx
    refine ⟨by simp [val_set, fi_init], ?_, ?_⟩
    · show addC [] ∅ x = 0
      simp [addC, cnt]
    · show remC [] ∅ x = 0
      simp [remC, cnt]
  · show (List.map Prod.fst ([] : List (TreatyKey × ℕ))).Nodup
    simp
  · show (List.map (fun p => p.2) ([] : List (TreatyKey × ℕ))).Nodup
    simp

/-- The invariant holds of the state after folding over the whole log. -/
theorem FIInv_events (events : List ReconRecord) :
    FIInv events (events.enum.foldl fi_step fi_init) := by
  have h := FIInv_foldl events [] fi_init FIInv_init
  simpa using h

theorem cum_delta_map_sort (l : List (Finset ℕ × Finset ℕ)) :
    cum_delta (l.map (fun d => (d.1.sort (· ≤ ·), d.2.sort (· ≤ ·)))) = cum_fin l := by
  unfold cum_delta cum_fin
  rw [List.foldl_map]
  congr 1
  funext S d
  simp [Finset.sort_toFinset]

theorem count_adds_transfer (l : List (Finset ℕ × Finset ℕ)) (e : ℕ) :
    (l.map (fun d => (d.1.sort (· ≤ ·), d.2.sort (· ≤ ·)))).countP
        (fun d => d.1.contains e) =
      l.countP (fun d => decide (e ∈ d.1)) := by
  rw [List.countP_map]
  congr 1
  funext d
  simp [List.contains_eq_any_beq, Finset.mem_sort]

theorem count_removes_transfer (l : List (Finset ℕ × Finset ℕ)) (e : ℕ) :
    (l.map (fun d => (d.1.sort (· ≤ ·), d.2.sort (· ≤ ·)))).countP
        (fun d => d.2.contains e) =
      l.countP (fun d => decide (e ∈ d.2)) := by
  rw [List.countP_map]
  congr 1
  funext d
  simp [List.contains_eq_any_beq, Finset.mem_sort]

theorem countP_concat_cnt (sel : Finset ℕ × Finset ℕ → Finset ℕ)
    (deltas : List (Finset ℕ × Finset ℕ)) (d : Finset ℕ × Finset ℕ) (e : ℕ) :
    (deltas ++ [d]).countP (fun x => decide (e ∈ sel x)) =
      cnt sel deltas (sel d) e := by
  unfold cnt
  rw [List.countP_append]
  simp [List.countP_cons]

/-- **C2.** For the frame index built from any event log: for every
position `i` of `day_keys`, replaying the first `i + 1` entries of
`active_edge_delta_by_day` onto an initially empty set yields exactly the
`edge_dict` ids whose relationship is still open after the events before
that day's end offset; and every edge id appears in at most one day's add
set (appearing in none exactly when its add was cancelled within the same
day), in at most one day's remove set, and never in more remove sets than
add sets. -/
theorem frame_index_delta_reconstruction (events : List ReconRecord) :
    (∀ i, i < (build_frame_index events).day_keys.length →
      cum_delta ((build_frame_index events).active_edge_delta_by_day.take (i + 1)) =
        fi_open (events.take
          ((build_frame_index events).event_end_offset_by_day.getD i 0))) ∧
    (∀ e, count_adds (build_frame_index events) e ≤ 1 ∧
      count_removes (build_frame_index events) e ≤ 1 ∧
      count_removes (build_frame_index events) e ≤
        count_adds (build_frame_index events) e) := by
  obtain ⟨ha, h1, h2, ho, hd, hc, hs, hale, hrle, hop, hfr, hk, hv⟩ :=
    FIInv_events events
  unfold count_adds count_removes
  rcases hcd : (events.enum.foldl fi_step fi_init).current_day with _ | cd
  · simp only [build_frame_index, hcd]
    generalize hsg : events.enum.foldl fi_step fi_init = s at ha h1 h2 ho hd hc hs hale hrle hop hfr hk hv ⊢
    constructor
    · intro i hi
      rw [← List.map_take, cum_delta_map_sort]
      exact hd i (by omega)
    · intro e
      rw [count_adds_transfer, count_removes_transfer]
      have q1 := countP_le_cnt (fun d => d.1) s.deltas s.day_add e
      have q2 := countP_le_cnt (fun d => d.2) s.deltas s.day_remove e
      simp only [] at q1 q2
      have q3 := hale e
      have q4 := hrle e
      rw [addC_eq] at q3
      rw [addC_eq, remC_eq] at q4
      refine ⟨by omega, by omega, ?_⟩
      by_cases hin : e ∈ s.day_add
      · obtain ⟨hr0, ha1⟩ := hop e (hs e hin)
        rw [remC_eq] at hr0
        omega
      · have q5 := cnt_notmem (fun d => d.1) s.deltas s.day_add e hin
        simp only [] at q5
        omega
  · simp only [build_frame_index, fi_flush_day, hcd]
    generalize hsg : events.enum.foldl fi_step fi_init = s at ha h1 h2 ho hd hc hs hale hrle hop hfr hk hv ⊢
    constructor
    · intro i hi
      have hi3 : i < s.day_keys.length + 1 := by
        rw [List.length_append] at hi
        simpa using hi
      rw [← List.map_take, cum_delta_map_sort]
      by_cases hlt : i < s.deltas.length
      · rw [List.take_append_of_le_length (by omega),
          getD_append_left _ _ _ _ (by omega)]
        exact hd i hlt
      · have hieq : i = s.deltas.length := by omega
        have htake : (s.deltas ++ [(s.day_add, s.day_remove)]).take (i + 1) =
            s.deltas ++ [(s.day_add, s.day_remove)] :=
          List.take_of_length_le (by simp [hieq])
        have hioff : i = s.event_end_offset_by_day.length := by omega
        rw [htake, cum_fin_append, hioff, getD_concat_self, List.take_length]
        show (cum_fin s.deltas ∪ s.day_add) \ s.day_remove = fi_open events
        rw [hc, fi_open_eq_val_set events s ha]
    · intro e
      rw [count_adds_transfer, count_removes_transfer,
        countP_concat_cnt (fun d => d.1) s.deltas (s.day_add, s.day_remove) e,
        countP_concat_cnt (fun d => d.2) s.deltas (s.day_add, s.day_remove) e]
      refine ⟨?_, ?_, ?_⟩
      · show cnt (fun d => d.1) s.deltas s.day_add e ≤ 1
        rw [← addC_eq]
        exact hale e
      · show cnt (fun d => d.2) s.deltas s.day_remove e ≤ 1
        rw [← remC_eq]
        exact le_trans (hrle e) (hale e)
      · show cnt (fun d => d.2) s.deltas s.day_remove e ≤
          cnt (fun d => d.1) s.deltas s.day_add e
        rw [← addC_eq, ← remC_eq]
        exact hrle e

/-- C2 witness: the reconstruction theorem applied to a concrete log at
day position `0` and edge id `0`, with the index bound discharged. -/
theorem frame_index_delta_reconstruction_witness :
    0 < (build_frame_index c2_events).day_keys.length ∧
    cum_delta ((build_frame_index c2_events).active_edge_delta_by_day.take 1) =
      fi_open (c2_events.take
        ((build_frame_index c2_events).event_end_offset_by_day.getD 0 0)) ∧
    count_adds (build_frame_index c2_events) 0 ≤ 1 :=
  ⟨by decide, (frame_index_delta_reconstruction c2_events).1 0 (by decide),
    ((frame_index_delta_reconstruction c2_events).2 0).1⟩

end TreatyVis
